import Mathlib

/-!
# HAR / Lighthouse to Excel converter

A shallow embedding of the extraction, classification and statistics code of
`src/har-to-excel.js` and of the report extraction and score rating of
`src/lighthouseParcer.js`, with the properties their specification states.

Modelling conventions.

* A JavaScript string is a `List Char`.  The strings handled by `categorize`
  are URL pathnames, which the URL parser leaves in ASCII (everything else is
  percent-encoded), so `toLowerCase` is the ASCII lowering; the regular
  expression classes `[a-z]`, `[A-Z]` and `\w` are ASCII by definition.
* A JavaScript number is the exact rational value (`ℚ`) of a double; `NaN`
  is a separate constructor where the code can produce it.  `toDouble` is the
  rounding of IEEE-754 binary64 arithmetic.  `median` and `percentile` are the
  two methods in exact arithmetic; `medianDouble` and `percentileDouble` are
  the same methods with each arithmetic operation rounded, and they are the
  ones `addSheet` calls.  At the percentage `95` of `addSheet` both give the
  same element (`percentileDouble95_eq`); at other percentages the index can
  differ by one (`rank7_of_100`).
* A file name is the list of its UTF-16 code units, the unit in which
  `length`, `substring` and `path.basename` count.
* `undefined` (an array read out of range, `pop()` of an empty array) is
  `none`; a thrown `TypeError` is `none` of the enclosing function.
-/

namespace HarToExcel

/-! ## Strings -/

/-- JavaScript strings, as lists of characters. -/
abbrev JSString := List Char

/-- Model of `String.prototype.toLowerCase` on an ASCII string. -/
def toLowerCase (s : JSString) : JSString := s.map Char.toLower

/-- Model of `str.split(sep)` for a one-character separator: the pieces
between the occurrences of `sep`; the empty string gives one empty piece. -/
def split (sep : Char) : JSString → List JSString
  | [] => [[]]
  | c :: cs =>
    if c = sep then [] :: split sep cs
    else
      match split sep cs with
      | [] => [[c]]
      | h :: t => (c :: h) :: t

/-- The class `\w` of a regular expression without flags: `[A-Za-z0-9_]`. -/
def isWordChar (c : Char) : Bool := c.isAlphanum || c == '_'

/-- White space and line terminators, as `String.prototype.trim` strips them. -/
def isJSSpace (c : Char) : Bool :=
  c.toNat ∈ [0x09, 0x0A, 0x0B, 0x0C, 0x0D, 0x20, 0xA0, 0x1680, 0x2000, 0x2001, 0x2002,
    0x2003, 0x2004, 0x2005, 0x2006, 0x2007, 0x2008, 0x2009, 0x200A, 0x2028, 0x2029,
    0x202F, 0x205F, 0x3000, 0xFEFF]

/-- Model of `String.prototype.trim`. -/
def trim (s : JSString) : JSString :=
  ((s.dropWhile isJSSpace).reverse.dropWhile isJSSpace).reverse

/-! ## `categorize` (har-to-excel.js, lines 76-108) -/

/-- The list `staticExts` of line 81. -/
def staticExts : List JSString :=
  ["js".toList, "css".toList, "png".toList, "jpg".toList, "jpeg".toList, "gif".toList,
   "svg".toList, "ico".toList, "woff".toList, "woff2".toList, "ttf".toList, "eot".toList,
   "map".toList]

/-- The set `skipSegments` of line 88. -/
def skipSegments : List JSString :=
  ["api".toList, "v1".toList, "v2".toList, "v3".toList, "v4".toList, "rest".toList,
   "web".toList, "app".toList, "public".toList, "private".toList, "internal".toList,
   "external".toList]

/-- Line 78, `url.pathname.split('.').pop().toLowerCase()`: `none` stands for
the `TypeError` of calling `toLowerCase` on the `undefined` that `pop` returns
on an empty array. -/
def mimeHint (pathname : JSString) : Option JSString :=
  (split '.' pathname).getLast?.map toLowerCase

/-- Line 85, `pathname.split('/').filter(Boolean)`: the non-empty pieces. -/
def segments (pathname : JSString) : List JSString :=
  (split '/' pathname).filter (fun s => s ≠ [])

/-- Lines 89-95: the loop that stops at the first segment whose lowercase
form is not in `skipSegments`; `none` is the initial `null`. -/
def findCategory : List JSString → Option JSString
  | [] => none
  | seg :: rest =>
    if toLowerCase seg ∉ skipSegments then some seg else findCategory rest

/-- Line 100, `category.replace(/\.[^.]+$/, '')`: the leftmost position where
a dot is followed by one or more non-dot characters up to the end of the
string is where the string is cut. -/
def stripExt : JSString → JSString
  | [] => []
  | c :: cs => if c = '.' ∧ cs ≠ [] ∧ '.' ∉ cs then [] else c :: stripExt cs

/-- Line 102, `.replace(/[-_]/g, ' ')`. -/
def dashToSpace (s : JSString) : JSString :=
  s.map (fun c => if c = '-' ∨ c = '_' then ' ' else c)

/-- Line 103, `.replace(/([a-z])([A-Z])/g, '$1 $2')`: matches are found left
to right and the search resumes after the two characters of a match. -/
def camelSplit : JSString → JSString
  | [] => []
  | [a] => [a]
  | a :: b :: rest =>
    if a.isLower ∧ b.isUpper then a :: ' ' :: b :: camelSplit rest
    else a :: camelSplit (b :: rest)

/-- Line 104, `.replace(/\b\w/g, c => c.toUpperCase())`: a word character at a
word boundary, that is one whose predecessor (if any) is not a word character,
is uppercased.  `prevWord` tells whether the preceding character is a word
character. -/
def titleCaseFrom (prevWord : Bool) : JSString → JSString
  | [] => []
  | c :: cs =>
    (if isWordChar c && !prevWord then c.toUpper else c) :: titleCaseFrom (isWordChar c) cs

/-- Line 104 applied to a whole string. -/
def titleCase (s : JSString) : JSString := titleCaseFrom false s

/-- Lines 100-105: the clean-up of the chosen segment. -/
def cleanUp (category : JSString) : JSString :=
  trim (titleCase (camelSplit (dashToSpace (stripExt category))))

/-- Line 107, `category || 'General'`: the empty string is falsy. -/
def orGeneral (category : JSString) : JSString :=
  if category = [] then "General".toList else category

/-- The method `categorize` applied to `url.pathname`.  `none` is a thrown
exception; line 97 returns `General` when `category` is `null` or empty. -/
def categorize (pathname : JSString) : Option JSString :=
  match mimeHint pathname with
  | none => none
  | some hint =>
    if hint ∈ staticExts then some "Static Asset".toList
    else
      match findCategory (segments pathname) with
      | none => some "General".toList
      | some category =>
        if category = [] then some "General".toList
        else some (orGeneral (cleanUp category))

/-- A pathname is a static asset when line 82 returns. -/
def isStaticAsset (pathname : JSString) : Prop :=
  ∃ hint, mimeHint pathname = some hint ∧ hint ∈ staticExts

instance (pathname : JSString) : Decidable (isStaticAsset pathname) :=
  match h : mimeHint pathname with
  | none => isFalse (by rintro ⟨x, hx, _⟩; rw [h] at hx; cases hx)
  | some hint =>
    if hm : hint ∈ staticExts then isTrue ⟨hint, h, hm⟩
    else isFalse (by rintro ⟨x, hx, hx2⟩; rw [h] at hx; cases hx; exact hm hx2)


/-! ### The normalisation of the seed, as the specification words it -/

/-- Specification wording, "strip a trailing `.extension` suffix": when the
string has a dot and the text after its last dot is not empty, that text and
the dot are removed. -/
def specStripExt (s : JSString) : JSString :=
  match s.reverse.dropWhile (fun c => c ≠ '.') with
  | [] => s
  | _ :: pre => if s.reverse.takeWhile (fun c => c ≠ '.') = [] then s else pre.reverse

/-- Specification wording, "insert a space before an uppercase letter that
immediately follows a lowercase letter": every such adjacent pair gets one. -/
def specCamelSplit : JSString → JSString
  | [] => []
  | [a] => [a]
  | a :: b :: rest =>
    if a.isLower ∧ b.isUpper then a :: ' ' :: specCamelSplit (b :: rest)
    else a :: specCamelSplit (b :: rest)

/-- Specification wording, "uppercase first letter of each
whitespace-delimited token": a character is uppercased exactly when it starts
the string or follows white space.  `prevSpace` tells whether it does. -/
def specTitleCaseFrom (prevSpace : Bool) : JSString → JSString
  | [] => []
  | c :: cs => (if prevSpace then c.toUpper else c) :: specTitleCaseFrom (isJSSpace c) cs

/-- The normalisation of step 4 of the specification of the categorizer. -/
def specNormalize (s : JSString) : JSString :=
  trim (specTitleCaseFrom true (specCamelSplit (dashToSpace (specStripExt s))))

/-- Title-casing by word starts: a word character (`[A-Za-z0-9_]`) is
uppercased exactly when the character before it, if there is one, is not a
word character.  Each character is paired with its predecessor. -/
def wordTitleCase (s : JSString) : JSString :=
  List.zipWith
    (fun (c : Char) (prev : Option Char) =>
      if isWordChar c && !(prev.any isWordChar) then c.toUpper else c)
    s (none :: s.map some)

/-- The normalisation of the specification with title-casing by word
starts in place of title-casing by white space. -/
def wordNormalize (s : JSString) : JSString :=
  trim (wordTitleCase (specCamelSplit (dashToSpace (specStripExt s))))

/-! ## Statistics (har-to-excel.js, lines 260-270) -/

/-- Model of `arr[i]` for an integer `i`: `undefined`, here `none`, when `i`
is negative or not below the length. -/
def jsIndex {α : Type} (l : List α) (i : Int) : Option α :=
  if i < 0 then none else l[i.toNat]?

/-- Model of `.sort((a, b) => a - b)` on numbers: a stable ascending sort. -/
def sortAsc (arr : List ℚ) : List ℚ := arr.insertionSort (fun a b => a ≤ b)

/-- Lines 262-263 of `median`, on the sorted copy.  `none` is a result that
is not a number (`undefined`, or the `NaN` of adding `undefined`). -/
def medianOfSorted (sorted : List ℚ) : Option ℚ :=
  let mid : Nat := sorted.length / 2
  if sorted.length % 2 ≠ 0 then jsIndex sorted mid
  else
    match jsIndex sorted ((mid : Int) - 1), jsIndex sorted mid with
    | some a, some b => some ((a + b) / 2)
    | _, _ => none

/-- Lines 268-269 of `percentile`, on the sorted copy. -/
def percentileOfSorted (sorted : List ℚ) (p : ℚ) : Option ℚ :=
  let index : Int := ⌈(p / 100) * (sorted.length : ℚ)⌉ - 1
  jsIndex sorted index

/-- The method `median`, as a function of the contents of `arr`, in exact
arithmetic. -/
def median (arr : List ℚ) : Option ℚ := medianOfSorted (sortAsc arr)

/-- The method `percentile`, as a function of the contents of `arr`, in exact
arithmetic. -/
def percentile (arr : List ℚ) (p : ℚ) : Option ℚ := percentileOfSorted (sortAsc arr) p

/-! ### Double arithmetic -/

/-- Rounding to the nearest integer, a tie going to the even one. -/
def roundHalfEven (x : ℚ) : ℤ :=
  if x - ⌊x⌋ < 1 / 2 then ⌊x⌋
  else if 1 / 2 < x - ⌊x⌋ then ⌊x⌋ + 1
  else if ⌊x⌋ % 2 = 0 then ⌊x⌋ else ⌊x⌋ + 1

/-- The binary exponent at which a real is rounded to a double: that of its
leading bit, and `-1022` in the subnormal range. -/
def binade (x : ℚ) : ℤ := max (Int.log 2 |x|) (-1022)

/-- The double nearest to a real, ties to even: the result of one IEEE-754
binary64 operation whose exact result is `x`, with 53 significant bits and
gradual underflow.  Overflow to `Infinity` is not modelled. -/
def toDouble (x : ℚ) : ℚ :=
  (roundHalfEven (x / 2 ^ (binade x - 52)) : ℚ) * 2 ^ (binade x - 52)

/-- The non-negative doubles: `m * 2 ^ q` with `m < 2 ^ 53` and `q ≥ -1074`. -/
def isDouble (y : ℚ) : Prop :=
  ∃ (m : ℕ) (q : ℤ), m < 2 ^ 53 ∧ -1074 ≤ q ∧ y = (m : ℚ) * 2 ^ q

/-- Lines 262-263 of `median` in double arithmetic: the sum and the halving
are each rounded. -/
def medianOfSortedDouble (sorted : List ℚ) : Option ℚ :=
  let mid : Nat := sorted.length / 2
  if sorted.length % 2 ≠ 0 then jsIndex sorted mid
  else
    match jsIndex sorted ((mid : Int) - 1), jsIndex sorted mid with
    | some a, some b => some (toDouble (toDouble (a + b) / 2))
    | _, _ => none

/-- Lines 268-269 of `percentile` in double arithmetic: `p / 100` is rounded,
and so is its product with the length; `Math.ceil` and the subtraction of 1
are exact. -/
def percentileOfSortedDouble (sorted : List ℚ) (p : ℚ) : Option ℚ :=
  let index : Int := ⌈toDouble (toDouble (p / 100) * (sorted.length : ℚ))⌉ - 1
  jsIndex sorted index

/-- The method `median` on an array of doubles. -/
def medianDouble (arr : List ℚ) : Option ℚ := medianOfSortedDouble (sortAsc arr)

/-- The method `percentile` on an array of doubles. -/
def percentileDouble (arr : List ℚ) (p : ℚ) : Option ℚ :=
  percentileOfSortedDouble (sortAsc arr) p

/-- The array `[1, 2, …, n]`. -/
def oneTo (n : Nat) : List ℚ := (List.range n).map fun i : Nat => (i : ℚ) + 1

/-! ### The same two methods over a store of mutable arrays -/

/-- A reference to an array of the store. -/
abbrev Ref := Nat

/-- The store: the arrays that exist, each at its reference. -/
structure Heap where
  arrays : List (List ℚ)
  deriving DecidableEq

/-- The contents of the array at `r`. -/
def Heap.read (h : Heap) (r : Ref) : List ℚ := h.arrays.getD r []

/-- Model of `[...arr]`: a new array with the given contents. -/
def Heap.alloc (h : Heap) (contents : List ℚ) : Heap × Ref :=
  (⟨h.arrays ++ [contents]⟩, h.arrays.length)

/-- Model of `Array.prototype.sort`: the array at `r` is sorted in place. -/
def Heap.sortInPlace (h : Heap) (r : Ref) : Heap :=
  ⟨h.arrays.set r (sortAsc (h.read r))⟩

/-- The method `median` on the store: the value returned and the store left. -/
def medianH (h : Heap) (arr : Ref) : Option ℚ × Heap :=
  let copied := h.alloc (h.read arr)
  let h2 := copied.1.sortInPlace copied.2
  (medianOfSorted (h2.read copied.2), h2)

/-- The method `percentile` on the store. -/
def percentileH (h : Heap) (arr : Ref) (p : ℚ) : Option ℚ × Heap :=
  let copied := h.alloc (h.read arr)
  let h2 := copied.1.sortInPlace copied.2
  (percentileOfSorted (h2.read copied.2) p, h2)

/-! ## `processHARFile` (har-to-excel.js, lines 26-74) -/

/-- A JavaScript number that may be `NaN`. -/
inductive JSNum where
  | num (q : ℚ)
  | nan
  deriving DecidableEq

/-- Model of `parseFloat(x.toFixed(2))` on a finite number: the multiple of
`1/100` nearest to `x`, the one of larger magnitude on a tie. -/
def toFixed2 (x : ℚ) : ℚ :=
  if x < 0 then -((⌊(-x) * 100 + 1 / 2⌋ : ℤ) : ℚ) / 100
  else ((⌊x * 100 + 1 / 2⌋ : ℤ) : ℚ) / 100

/-- The object `entry.timings`; a field that is absent is `none`. -/
structure Timings where
  blocked : Option JSNum
  dns : Option JSNum
  connect : Option JSNum
  ssl : Option JSNum
  send : Option JSNum
  wait : Option JSNum
  receive : Option JSNum
  deriving DecidableEq

/-- The fields of an entry of `log.entries` that `processHARFile` reads:
`request.method`, `request.url`, `response.status`, `response.content.size`
(`none` when absent), `time` and `timings` (`none` when absent). -/
structure Entry where
  method : JSString
  url : JSString
  status : Int
  size : Option ℚ
  time : ℚ
  timings : Option Timings
  deriving DecidableEq

/-- The object `page.pageTimings`. -/
structure RawPageTimings where
  onContentLoad : Option ℚ
  onLoad : Option ℚ
  deriving DecidableEq

/-- An element of `log.pages`. -/
structure Page where
  title : Option JSString
  pageTimings : Option RawPageTimings
  deriving DecidableEq

/-- The object `harData.log`. -/
structure HarLog where
  entries : List Entry
  pages : Option (List Page)
  deriving DecidableEq

/-- A row of the result, lines 55-70.  A number that `parseFloat` reads from a
`toFixed(2)` text is held as the decimal that the text shows; `addSheet`
reads it back as the double nearest to it. -/
structure Row where
  num : Nat
  method : JSString
  url : JSString
  category : JSString
  status : Int
  time : ℚ
  size : JSNum
  blocked : ℚ
  dns : ℚ
  connect : ℚ
  ssl : ℚ
  send : ℚ
  wait : ℚ
  receive : ℚ
  deriving DecidableEq

/-- An element of `pageTimings`, lines 36-40. -/
structure PageTiming where
  title : JSString
  onContentLoad : ℚ
  onLoad : ℚ
  deriving DecidableEq

/-- Line 53, `(v && v >= 0) ? parseFloat(v.toFixed(2)) : 0`: `undefined`,
`NaN` and `0` are falsy. -/
def val (v : Option JSNum) : ℚ :=
  match v with
  | some (JSNum.num q) => if q ≠ 0 ∧ q ≥ 0 then toFixed2 q else 0
  | _ => 0

/-- Lines 47 and 51: `parseFloat((response.content.size / 1024).toFixed(2))`;
an absent size divides to `NaN`, which `toFixed` and `parseFloat` keep. -/
def sizeKB (size : Option ℚ) : JSNum :=
  match size with
  | none => JSNum.nan
  | some b => JSNum.num (toFixed2 (b / 1024))

/-- Lines 36-40, the callback of `pages.map`. -/
def pageTimingOf (page : Page) : PageTiming :=
  { title :=
      match page.title with
      | none => "Unknown".toList
      | some t => if t = [] then "Unknown".toList else t
    onContentLoad := ((page.pageTimings.bind fun t => t.onContentLoad).getD (-1))
    onLoad := ((page.pageTimings.bind fun t => t.onLoad).getD (-1)) }

/-- Lines 42-71, the callback of `entries.map` at position `index`.
`parseURL` stands for `new URL(...)` followed by `.pathname`, `none` when the
constructor throws; an exception of the callback is `none`. -/
def makeRow (parseURL : JSString → Option JSString) (index : Nat) (entry : Entry) :
    Option Row :=
  match parseURL entry.url with
  | none => none
  | some pathname =>
    match categorize pathname with
    | none => none
    | some category =>
      let t : Timings := entry.timings.getD ⟨none, none, none, none, none, none, none⟩
      some
        { num := index + 1
          method := entry.method
          url := entry.url
          category := category
          status := entry.status
          time := toFixed2 entry.time
          size := sizeKB entry.size
          blocked := val t.blocked
          dns := val t.dns
          connect := val t.connect
          ssl := val t.ssl
          send := val t.send
          wait := val t.wait
          receive := val t.receive }

/-- Model of `entries.map(callback)` from position `index` on: the rows in
order, or `none` as soon as the callback throws. -/
def mapEntries (parseURL : JSString → Option JSString) : Nat → List Entry → Option (List Row)
  | _, [] => some []
  | index, entry :: rest =>
    match makeRow parseURL index entry with
    | none => none
    | some row =>
      match mapEntries parseURL (index + 1) rest with
      | none => none
      | some rows => some (row :: rows)

/-- The method `processHARFile` on the parsed document: `rows` and
`pageTimings`, or `none` when an exception escapes. -/
def processHARFile (parseURL : JSString → Option JSString) (log : HarLog) :
    Option (List Row × List PageTiming) :=
  let pageTimings := (log.pages.getD []).map pageTimingOf
  match mapEntries parseURL 0 log.entries with
  | none => none
  | some rows => some (rows, pageTimings)

/-! ## `addSheet` of har-to-excel.js (lines 110-258): the values it computes -/

/-- The seven timing fields of `entry.timings`, in the order of lines 63-69. -/
def Timings.fields (t : Timings) : List (Option JSNum) :=
  [t.blocked, t.dns, t.connect, t.ssl, t.send, t.wait, t.receive]

/-- The seven timing values of a row, in the order of lines 63-69. -/
def Row.timingValues (r : Row) : List ℚ :=
  [r.blocked, r.dns, r.connect, r.ssl, r.send, r.wait, r.receive]

/-- The double that a number printed with two decimals is read back as. -/
def JSNum.toDouble (x : JSNum) : JSNum :=
  match x with
  | JSNum.num a => JSNum.num (HarToExcel.toDouble a)
  | JSNum.nan => JSNum.nan

/-- Addition of two doubles: the sum is rounded and `NaN` is absorbing. -/
def JSNum.add : JSNum → JSNum → JSNum
  | JSNum.num a, JSNum.num b => JSNum.num (HarToExcel.toDouble (a + b))
  | _, _ => JSNum.nan

/-- Model of `(x / n).toFixed(2)` for a count `n`, the text being modelled by
the number it shows: the quotient is rounded to a double, then printed; the
text of `NaN` is `NaN`. -/
def JSNum.divFixed (x : JSNum) (n : Nat) : JSNum :=
  match x with
  | JSNum.num a => JSNum.num (toFixed2 (HarToExcel.toDouble (a / (n : ℚ))))
  | JSNum.nan => JSNum.nan

/-- Model of `x.toFixed(2)` read back as a number. -/
def JSNum.fixed (x : JSNum) : JSNum :=
  match x with
  | JSNum.num a => JSNum.num (toFixed2 a)
  | JSNum.nan => JSNum.nan

/-- Lines 173-181: the texts of the baseline section, each modelled by the
number it prints (a `toFixed(2)` text by the multiple of `1/100` it shows). -/
structure Baseline where
  totalRequests : Nat
  avgTime : ℚ
  minTime : ℚ
  maxTime : ℚ
  medianTime : ℚ
  p95Time : ℚ
  avgSize : JSNum
  totalSize : JSNum
  avgTTFB : ℚ
  p95TTFB : ℚ
  deriving DecidableEq

/-- What a cell of the page-timing rows shows, lines 246-247: the text `N/A`
or the text of `toFixed(2)`. -/
inductive TimingCell where
  | notAvailable
  | fixed (q : ℚ)
  deriving DecidableEq

/-- Lines 246-247, `t >= 0 ? t.toFixed(2) : 'N/A'`. -/
def pageTimingCell (t : ℚ) : TimingCell :=
  if t ≥ 0 then TimingCell.fixed (toFixed2 t) else TimingCell.notAvailable

/-- A row of the page-timing section, lines 244-248. -/
structure PageRow where
  title : JSString
  onContentLoad : TimingCell
  onLoad : TimingCell
  deriving DecidableEq

/-- Lines 243-248, the row written for one element of `pageTimings`. -/
def pageRowOf (pt : PageTiming) : PageRow :=
  { title := pt.title
    onContentLoad := pageTimingCell pt.onContentLoad
    onLoad := pageTimingCell pt.onLoad }

/-- The outcome of `addSheet`: the return of line 111 before any worksheet
exists, a worksheet with its baseline values and page-timing rows (no row
when the section of line 225 is not written), or an exception. -/
inductive AddSheetResult where
  | skipped
  | added (stats : Baseline) (pageRows : List PageRow)
  | threw
  deriving DecidableEq

/-- The method `addSheet` of har-to-excel.js: line 111 and the values of
lines 169-181 and 243-248, in double arithmetic.  The values of the rows are
read as doubles; each addition of the two `reduce` calls and each division is
rounded; `Math.min` and `Math.max` fold over the non-empty list; `toFixed`
of the `undefined` that `median` or `percentile` could return is the thrown
`TypeError`. -/
def addSheet (rows : List Row) (pageTimings : List PageTiming) : AddSheetResult :=
  match rows with
  | [] => AddSheetResult.skipped
  | r :: rs =>
    let times := ((r :: rs).map Row.time).map toDouble
    let sizes := ((r :: rs).map Row.size).map JSNum.toDouble
    let waits := ((r :: rs).map Row.wait).map toDouble
    let totalRequests := (r :: rs).length
    match medianDouble times, percentileDouble times 95, percentileDouble waits 95 with
    | some med, some p95, some p95w =>
      AddSheetResult.added
        { totalRequests := totalRequests
          avgTime := toFixed2
            (toDouble (times.foldl (fun a b => toDouble (a + b)) 0 / (totalRequests : ℚ)))
          minTime := toFixed2 (times.foldl min (toDouble r.time))
          maxTime := toFixed2 (times.foldl max (toDouble r.time))
          medianTime := toFixed2 med
          p95Time := toFixed2 p95
          avgSize := (sizes.foldl JSNum.add (JSNum.num 0)).divFixed totalRequests
          totalSize := (sizes.foldl JSNum.add (JSNum.num 0)).fixed
          avgTTFB := toFixed2
            (toDouble (waits.foldl (fun a b => toDouble (a + b)) 0 / (totalRequests : ℚ)))
          p95TTFB := toFixed2 p95w }
        (pageTimings.map pageRowOf)
    | _, _, _ => AddSheetResult.threw

/-! ## `lighthouseParcer.js`: `processLighthouseFile` and `getScoreLabel` -/

/-- A parsed JSON object: its members in the order of the document, with
distinct keys. -/
abbrev Obj (α : Type) := List (JSString × α)

/-- Model of `obj[key]`: `none` is `undefined`. -/
def objGet {α : Type} : Obj α → JSString → Option α
  | [], _ => none
  | (k, v) :: rest, key => if k = key then some v else objGet rest key

/-- A `score` member: absent, `null` or a number. -/
inductive Score where
  | undefined
  | null
  | num (q : ℚ)
  deriving DecidableEq

/-- Model of `Math.round`: the nearest integer, the larger one on a tie. -/
def jsRound (x : ℚ) : ℤ := ⌊x + 1 / 2⌋

/-- The three ratings of lines 161-163. -/
inductive Rating where
  | good
  | needsWork
  | poor
  deriving DecidableEq

/-- The text returned by `getScoreLabel`: `N/A`, or the percentage followed
by the rating in brackets. -/
inductive ScoreLabel where
  | notAvailable
  | rated (pct : ℤ) (rating : Rating)
  deriving DecidableEq

/-- The rating named in a label, if any. -/
def ScoreLabel.rating? : ScoreLabel → Option Rating
  | ScoreLabel.notAvailable => none
  | ScoreLabel.rated _ r => some r

/-- The method `getScoreLabel`, lines 158-164. -/
def getScoreLabel (score : Score) : ScoreLabel :=
  match score with
  | Score.null => ScoreLabel.notAvailable
  | Score.undefined => ScoreLabel.notAvailable
  | Score.num s =>
    let pct := jsRound (s * 100)
    if s ≥ 9 / 10 then ScoreLabel.rated pct Rating.good
    else if s ≥ 1 / 2 then ScoreLabel.rated pct Rating.needsWork
    else ScoreLabel.rated pct Rating.poor

/-- A member of `data.categories`: its `title` and `score`. -/
structure Category where
  title : Option JSString
  score : Score
  deriving DecidableEq

/-- The `score` of an element of `categoryScores`: the text `N/A`, an
integer, or the `NaN` that `Math.round` returns on `undefined * 100`. -/
inductive CatScore where
  | notAvailable
  | nan
  | value (n : ℤ)
  deriving DecidableEq

/-- An element of `categoryScores`, lines 58-61. -/
structure CategoryScore where
  category : Option JSString
  score : CatScore
  deriving DecidableEq

/-- The list `categoryOrder` of line 55. -/
def categoryOrder : List JSString :=
  ["performance".toList, "accessibility".toList, "best-practices".toList, "seo".toList]

/-- Lines 58-61: the element pushed for a category; line 60 compares the
score with `null` only. -/
def categoryScoreOf (c : Category) : CategoryScore :=
  { category := c.title
    score :=
      match c.score with
      | Score.null => CatScore.notAvailable
      | Score.undefined => CatScore.nan
      | Score.num q => CatScore.value (jsRound (q * 100)) }

/-- Lines 54-63: the loop over `categoryOrder`. -/
def categoryScores (categories : Obj Category) : List CategoryScore :=
  categoryOrder.filterMap fun catId => (objGet categories catId).map categoryScoreOf

/-- The fields of an element of `details.items` that lines 98-103 read. -/
structure DetailItem where
  url : Option JSString
  total : Option ℚ
  scripting : Option ℚ
  scriptParseCompile : Option ℚ
  deriving DecidableEq

/-- A member of `data.audits`: `title`, `score`, `numericValue`,
`displayValue`, the text `JSON.stringify` gives for `metricSavings` when it
is present, and `details.items` when present. -/
structure Audit where
  title : Option JSString
  score : Score
  numericValue : Option ℚ
  displayValue : Option JSString
  metricSavings : Option JSString
  items : Option (List DetailItem)
  deriving DecidableEq

/-- Model of `s || 'N/A'` on a string that may be absent. -/
def orNA (s : Option JSString) : JSString :=
  match s with
  | none => "N/A".toList
  | some t => if t = [] then "N/A".toList else t

/-- An element of `jsExecution`, lines 98-103. -/
structure JsExecutionRow where
  url : JSString
  total : ℚ
  scripting : ℚ
  scriptParseCompile : ℚ
  deriving DecidableEq

/-- Lines 98-103, the callback of `map`: `(x || 0).toFixed(2)` read back. -/
def jsExecutionRow (item : DetailItem) : JsExecutionRow :=
  { url := orNA item.url
    total := toFixed2 (item.total.getD 0)
    scripting := toFixed2 (item.scripting.getD 0)
    scriptParseCompile := toFixed2 (item.scriptParseCompile.getD 0) }

/-- Line 97, `audits['bootup-time']?.details?.items || []`. -/
def bootupItems (audits : Obj Audit) : List DetailItem :=
  ((objGet audits "bootup-time".toList).bind fun a => a.items).getD []

/-- Line 98, `bootupItems.slice(0, 10).map(...)`. -/
def jsExecution (audits : Obj Audit) : List JsExecutionRow :=
  ((bootupItems audits).take 10).map jsExecutionRow

/-- The list `diagnosticAudits` of lines 118-123. -/
def diagnosticAudits : List JSString :=
  ["unused-javascript".toList, "unused-css-rules".toList, "render-blocking-resources".toList,
   "uses-text-compression".toList, "uses-optimized-images".toList,
   "uses-responsive-images".toList, "modern-image-formats".toList,
   "efficient-animated-content".toList, "duplicated-javascript".toList,
   "legacy-javascript".toList, "unminified-css".toList, "unminified-javascript".toList]

/-- An element of `diagnostics`, lines 126-131. -/
structure Diagnostic where
  audit : JSString
  score : ℚ
  displayValue : JSString
  savings : JSString
  deriving DecidableEq

/-- Lines 126-131: the element pushed for the audit `a` found at `id`, whose
score is the number `s`. -/
def diagnosticEntry (id : JSString) (a : Audit) (s : ℚ) : Diagnostic :=
  { audit :=
      match a.title with
      | none => id
      | some t => if t = [] then id else t
    score := s
    displayValue := orNA a.displayValue
    savings := a.metricSavings.getD "N/A".toList }

/-- Lines 125-132, the body of the loop for one `id`: the condition
`audits[id] && audits[id].score !== null && audits[id].score < 1`, where
`undefined < 1` is false. -/
def diagnosticOf (audits : Obj Audit) (id : JSString) : Option Diagnostic :=
  match objGet audits id with
  | none => none
  | some a =>
    match a.score with
    | Score.null => none
    | Score.undefined => none
    | Score.num s => if s < 1 then some (diagnosticEntry id a s) else none

/-- Lines 117-133: the loop over `diagnosticAudits`. -/
def diagnostics (audits : Obj Audit) : List Diagnostic :=
  diagnosticAudits.filterMap (diagnosticOf audits)

/-- The members of the parsed document that the sections below read. -/
structure LighthouseDoc where
  audits : Option (Obj Audit)
  categories : Option (Obj Category)
  deriving DecidableEq

/-- The sections of the report of lines 137-148 that are modelled. -/
structure Report where
  categoryScores : List CategoryScore
  jsExecution : List JsExecutionRow
  diagnostics : List Diagnostic
  deriving DecidableEq

/-- The method `processLighthouseFile` on the parsed document; lines 40-41
replace an absent `audits` or `categories` by the empty object. -/
def processLighthouseFile (data : LighthouseDoc) : Report :=
  let audits := data.audits.getD []
  let categories := data.categories.getD []
  { categoryScores := categoryScores categories
    jsExecution := jsExecution audits
    diagnostics := diagnostics audits }

/-- Lines 38-39 of `processLighthouseFile` followed by the rest of the
method: `parseJSON` stands for `JSON.parse`, `none` when it throws, and the
result is `none` when an exception leaves the method. -/
def processLighthouseRaw (parseJSON : JSString → Option LighthouseDoc) (rawData : JSString) :
    Option Report :=
  match parseJSON rawData with
  | none => none
  | some data => some (processLighthouseFile data)

/-! ## Score styles and the category rows of `addSheet` (lighthouseParcer.js) -/

/-- The fonts that a score cell can get: `FONT_DEFAULT`, `FONT_SCORE_GOOD`,
`FONT_SCORE_AVG` and `FONT_SCORE_POOR`. -/
inductive ScoreFont where
  | fontDefault
  | fontScoreGood
  | fontScoreAvg
  | fontScorePoor
  deriving DecidableEq

/-- The fills that a score cell can get: `FILL_SCORE_GOOD`, `FILL_SCORE_AVG`
and `FILL_SCORE_POOR`. -/
inductive ScoreFill where
  | fillScoreGood
  | fillScoreAvg
  | fillScorePoor
  deriving DecidableEq

/-- The object returned by `getScoreStyle`; the fill `null` is `none`. -/
structure ScoreStyle where
  font : ScoreFont
  fill : Option ScoreFill
  deriving DecidableEq

/-- The method `getScoreStyle`, lines 151-156. -/
def getScoreStyle (score : Score) : ScoreStyle :=
  match score with
  | Score.null => { font := ScoreFont.fontDefault, fill := none }
  | Score.undefined => { font := ScoreFont.fontDefault, fill := none }
  | Score.num s =>
    if s ≥ 9 / 10 then { font := ScoreFont.fontScoreGood, fill := some ScoreFill.fillScoreGood }
    else if s ≥ 1 / 2 then
      { font := ScoreFont.fontScoreAvg, fill := some ScoreFill.fillScoreAvg }
    else { font := ScoreFont.fontScorePoor, fill := some ScoreFill.fillScorePoor }

/-- The first three cells of a row of the category-scores section and the
style of its score cells, lines 242-259; the rating `none` is the text
`N/A`. -/
structure CategoryRow where
  category : Option JSString
  shown : CatScore
  rating : Option Rating
  style : ScoreStyle
  deriving DecidableEq

/-- Lines 243-251, the callback of `categoryScores.forEach`.  A score that
is `NaN` has type `number`; all comparisons with `NaN / 100` are false, so
`getScoreStyle` and the rating fall through to their last case. -/
def categoryRow (cat : CategoryScore) : CategoryRow :=
  match cat.score with
  | CatScore.notAvailable =>
    { category := cat.category, shown := CatScore.notAvailable, rating := none,
      style := { font := ScoreFont.fontDefault, fill := none } }
  | CatScore.nan =>
    { category := cat.category, shown := CatScore.nan, rating := some Rating.poor,
      style := { font := ScoreFont.fontScorePoor, fill := some ScoreFill.fillScorePoor } }
  | CatScore.value scoreVal =>
    let normalized : ℚ := (scoreVal : ℚ) / 100
    { category := cat.category
      shown := CatScore.value scoreVal
      rating := some (if normalized ≥ 9 / 10 then Rating.good
        else if normalized ≥ 1 / 2 then Rating.needsWork else Rating.poor)
      style := getScoreStyle (Score.num normalized) }

/-- Specification wording of the threshold table: score ≥ 0.9 is `Good`,
0.5 ≤ score < 0.9 is `Needs Work`, score < 0.5 is `Poor`. -/
def specRating (s : ℚ) : Rating :=
  if 9 / 10 ≤ s then Rating.good
  else if 1 / 2 ≤ s then Rating.needsWork else Rating.poor

/-! ## The sheet name (har-to-excel.js lines 371 and 386-389, lighthouseParcer.js lines 563 and 577-580) -/

/-- A JavaScript string as the list of its UTF-16 code units, which is what
`length`, `substring` and `endsWith` count. -/
abbrev CodeUnits := List Nat

/-- The UTF-16 code units of a list of characters: one unit below `0x10000`,
a surrogate pair from there on. -/
def utf16 (s : List Char) : CodeUnits :=
  s.flatMap fun c =>
    if c.toNat < 0x10000 then [c.toNat]
    else [0xD800 + (c.toNat - 0x10000) / 0x400, 0xDC00 + (c.toNat - 0x10000) % 0x400]

/-- Lowercasing of one code unit, on the letters `A` to `Z`: no other
character lowercases to a unit of `.har` or of `.json`. -/
def lowerUnit (u : Nat) : Nat := if 65 ≤ u ∧ u ≤ 90 then u + 32 else u

/-- The filter of line 371 (line 563 in lighthouseParcer.js),
`f.toLowerCase().endsWith(ext)`. -/
def admitted (ext fileName : CodeUnits) : Bool := ext.isSuffixOf (fileName.map lowerUnit)

/-- Model of `path.basename(name, ext)` of Node for a name without directory
separator, as `fs.readdir` returns it: the suffix is looked at when it is not
empty and not longer than the name; the result is empty when the name is the
suffix, the name without the suffix when it ends with it, unit for unit, and
the name otherwise. -/
def basename (name ext : CodeUnits) : CodeUnits :=
  if ext = [] ∨ name.length < ext.length then name
  else if ext = name then []
  else if ext.isSuffixOf name then name.take (name.length - ext.length)
  else name

/-- The name handed to `addSheet` for the file `fileName`, where `ext` is
`.har` or `.json`: `substring(0, 31)` when the length exceeds 31. -/
def sheetNameOf (ext fileName : CodeUnits) : CodeUnits :=
  let sheetName := basename fileName ext
  if sheetName.length > 31 then sheetName.take 31 else sheetName

/-- Lines 386-389 of har-to-excel.js. -/
def harSheetName (fileName : CodeUnits) : CodeUnits :=
  sheetNameOf (utf16 ".har".toList) fileName

/-- Lines 577-580 of lighthouseParcer.js. -/
def lighthouseSheetName (fileName : CodeUnits) : CodeUnits :=
  sheetNameOf (utf16 ".json".toList) fileName

/-! ### A sample capture -/

/-- A stand-in for `new URL(...).pathname` on the samples: for a URL
`https://x/...` the pathname runs from the slash after the host to the first
`?` or `#`; a text with a space and without scheme, such as `not a url`, does
not parse.  Other URLs are outside the samples and are given no pathname. -/
def sampleParseURL (url : JSString) : Option JSString :=
  if url.take 10 = "https://x/".toList then
    some ('/' :: (url.drop 10).takeWhile fun c => c ≠ '?' ∧ c ≠ '#')
  else none

/-- Two entries of a capture. -/
def sampleLog : HarLog :=
  { entries :=
      [ { method := "GET".toList, url := "https://x/api/v1/users/7".toList, status := 200,
          size := some 2048, time := 12, timings := none },
        { method := "POST".toList, url := "https://x/app.css".toList, status := 304,
          size := none, time := 3, timings := none } ]
    pages := none }

/-- An entry with timings of every kind: a negative sentinel, an absent
field, a `NaN`, a value with two decimals and a zero. -/
def timedEntry : Entry :=
  { method := "GET".toList, url := "https://x/api/orders".toList, status := 200,
    size := some 512, time := 7,
    timings := some
      { blocked := some (JSNum.num (-1)), dns := none, connect := some JSNum.nan,
        ssl := some (JSNum.num (5 / 4)), send := some (JSNum.num 0),
        wait := some (JSNum.num 3), receive := none } }

/-- A capture whose second entry has a URL that does not parse. -/
def brokenLog : HarLog :=
  { entries :=
      [ { method := "GET".toList, url := "https://x/api/v1/users/7".toList, status := 200,
          size := some 2048, time := 12, timings := none },
        { method := "GET".toList, url := "not a url".toList, status := 0,
          size := some 0, time := 1, timings := none },
        { method := "GET".toList, url := "https://x/orders".toList, status := 200,
          size := some 1024, time := 5, timings := none } ]
    pages := none }

/-- A capture of two entries whose times, `1/128` and `1/64`, are rounded to
`0.01` and `0.02` in their rows. -/
def centLog : HarLog :=
  { entries :=
      [ { method := "GET".toList, url := "https://x/a".toList, status := 200,
          size := some 0, time := 1 / 128, timings := none },
        { method := "GET".toList, url := "https://x/b".toList, status := 200,
          size := some 0, time := 1 / 64, timings := none } ]
    pages := none }

/-- An entry whose time is written `1.005` in the capture: the number that
`JSON.parse` reads is the double nearest to `201/200`. -/
def tieEntry : Entry :=
  { method := "GET".toList, url := "https://x/a".toList, status := 200,
    size := some 0, time := toDouble (201 / 200), timings := none }

/-- A capture of one entry and three pages: a content-loaded timing of `0`
with no full-load timing, a page without title and without `pageTimings`, and
a negative content-loaded timing with a full-load timing of `12.5`. -/
def pagedLog : HarLog :=
  { entries :=
      [ { method := "GET".toList, url := "https://x/a".toList, status := 200,
          size := some 0, time := 1, timings := none } ]
    pages := some
      [ { title := some "home".toList,
          pageTimings := some { onContentLoad := some 0, onLoad := none } },
        { title := none, pageTimings := none },
        { title := some "cart".toList,
          pageTimings := some { onContentLoad := some (-1), onLoad := some (25 / 2) } } ] }

/-- A document whose bootup-time audit lists three scripts, the costliest
in the middle and two of equal cost around it. -/
def bootupDoc : LighthouseDoc :=
  { audits := some
      [("bootup-time".toList,
        { title := some "JavaScript execution time".toList, score := Score.num 1,
          numericValue := some 19, displayValue := none, metricSavings := none,
          items := some
            [ { url := some "a.js".toList, total := some 5, scripting := some 4,
                scriptParseCompile := some 1 },
              { url := some "b.js".toList, total := some 9, scripting := some 8,
                scriptParseCompile := some 1 },
              { url := none, total := some 5, scripting := none,
                scriptParseCompile := none } ] })]
    categories := none }

/-- Categories in an order other than that of `categoryOrder`, the second
one with a `null` score. -/
def shuffledCategories : Obj Category :=
  [("seo".toList, { title := some "SEO".toList, score := Score.num (9 / 10) }),
   ("other".toList, { title := some "Other".toList, score := Score.num 1 }),
   ("performance".toList, { title := some "Performance".toList, score := Score.null })]

/-- A document with three audits of the allow-list, of scores `1/2`, `1`
and `null`, and one audit outside the allow-list. -/
def diagnosticDoc : LighthouseDoc :=
  { audits := some
      [("unminified-css".toList,
        { title := some "Minify CSS".toList, score := Score.num (1 / 2), numericValue := none,
          displayValue := none, metricSavings := none, items := none }),
       ("unused-css-rules".toList,
        { title := none, score := Score.num 1, numericValue := none,
          displayValue := none, metricSavings := none, items := none }),
       ("legacy-javascript".toList,
        { title := none, score := Score.null, numericValue := none,
          displayValue := none, metricSavings := none, items := none }),
       ("viewport".toList,
        { title := none, score := Score.num 0, numericValue := none,
          displayValue := none, metricSavings := none, items := none })]
    categories := none }

/-- A stand-in for `JSON.parse`: the text of the empty object is the
document without members; any other text does not parse. -/
def sampleParseJSON (rawData : JSString) : Option LighthouseDoc :=
  if rawData = "\x7b\x7d".toList then some { audits := none, categories := none } else none

/-! # Theorems -/

/-! ## Lemmas on `split` and `categorize` -/

theorem split_ne_nil (sep : Char) (s : JSString) : split sep s ≠ [] := by
  induction s with
  | nil => simp [split]
  | cons c cs ih =>
    unfold split
    split_ifs
    · simp
    · cases h : split sep cs <;> simp

theorem split_append_sep (sep : Char) (pre rest : JSString) :
    split sep (pre ++ sep :: rest) = split sep pre ++ split sep rest := by
  induction pre with
  | nil => simp [split]
  | cons c cs ih =>
    by_cases hc : c = sep
    · simp [split, hc, ← ih]
    · have hne := split_ne_nil sep cs
      cases h : split sep cs with
      | nil => exact absurd h hne
      | cons a t => simp [split, hc, ih, h]

theorem split_of_not_mem (sep : Char) (s : JSString) (h : sep ∉ s) : split sep s = [s] := by
  induction s with
  | nil => simp [split]
  | cons c cs ih =>
    simp only [List.mem_cons, not_or] at h
    have hc : c ≠ sep := fun e => h.1 e.symm
    simp [split, hc, ih h.2]

theorem mimeHint_append_dot (pre ext : JSString) (h : '.' ∉ ext) :
    mimeHint (pre ++ '.' :: ext) = some (toLowerCase ext) := by
  simp [mimeHint, split_append_sep, split_of_not_mem _ _ h]

theorem mimeHint_isSome (pathname : JSString) : ∃ hint, mimeHint pathname = some hint := by
  unfold mimeHint
  cases h : (split '.' pathname).getLast? with
  | none => exact absurd (List.getLast?_eq_none_iff.mp h) (split_ne_nil _ _)
  | some x => exact ⟨toLowerCase x, rfl⟩

theorem categorize_of_not_static (pathname : JSString) (h : ¬ isStaticAsset pathname) :
    categorize pathname =
      match findCategory (segments pathname) with
      | none => some "General".toList
      | some category =>
        if category = [] then some "General".toList else some (orGeneral (cleanUp category)) := by
  obtain ⟨hint, hh⟩ := mimeHint_isSome pathname
  have hn : hint ∉ staticExts := fun hm => h ⟨hint, hh, hm⟩
  simp only [categorize, hh, if_neg hn]

theorem findCategory_append (pre post : List JSString) (s : JSString)
    (hpre : ∀ x ∈ pre, toLowerCase x ∈ skipSegments) (hs : toLowerCase s ∉ skipSegments) :
    findCategory (pre ++ s :: post) = some s := by
  induction pre with
  | nil => simp [findCategory, hs]
  | cons a t ih =>
    have ha : toLowerCase a ∈ skipSegments := hpre a (List.mem_cons_self _ _)
    simp only [List.cons_append, findCategory, ha, not_true_eq_false, if_false]
    exact ih (fun x hx => hpre x (List.mem_cons_of_mem _ hx))

theorem findCategory_eq_none (l : List JSString)
    (h : ∀ x ∈ l, toLowerCase x ∈ skipSegments) : findCategory l = none := by
  induction l with
  | nil => rfl
  | cons a t ih =>
    have ha : toLowerCase a ∈ skipSegments := h a (List.mem_cons_self _ _)
    simp only [findCategory, ha, not_true_eq_false, if_false]
    exact ih (fun x hx => h x (List.mem_cons_of_mem _ hx))

theorem mem_segments_ne_nil (pathname s : JSString) (h : s ∈ segments pathname) : s ≠ [] := by
  simpa using (List.mem_filter.mp h).2

theorem findCategory_mem (l : List JSString) (s : JSString) (h : findCategory l = some s) :
    s ∈ l := by
  induction l with
  | nil => simp [findCategory] at h
  | cons a t ih =>
    by_cases ha : toLowerCase a ∈ skipSegments
    · simp only [findCategory, ha, not_true_eq_false, if_false] at h
      exact List.mem_cons_of_mem _ (ih h)
    · simp only [findCategory, ha, not_false_eq_true, if_true, Option.some.injEq] at h
      exact h ▸ List.mem_cons_self _ _

theorem orGeneral_ne_nil (s : JSString) : orGeneral s ≠ [] := by
  unfold orGeneral
  split_ifs with h
  · decide
  · exact h

/-! ## Claims on `categorize` -/

/-- C1: a pathname whose text after the last dot is, up to letter case, one
of the thirteen static extensions is categorised as `Static Asset`, whatever
stands before that dot. -/
theorem categorize_static_asset (pre ext : JSString) (hdot : '.' ∉ ext)
    (hext : toLowerCase ext ∈ staticExts) :
    categorize (pre ++ '.' :: ext) = some "Static Asset".toList := by
  simp [categorize, mimeHint_append_dot pre ext hdot, hext]

theorem categorize_static_asset_witness :
    categorize "/billing/app.CSS".toList = some "Static Asset".toList :=
  categorize_static_asset "/billing/app".toList "CSS".toList (by decide) (by decide)

/-- C2: for a pathname that is not a static asset, the segment kept by the
loop is the first non-empty segment whose lowercase form is not a wrapper:
when the segments are `pre ++ s :: post` with every segment of `pre` a wrapper
and `s` not one, the seed is `s` and the label is computed from `s` alone, so
that a pathname with other later segments gets the same label. -/
theorem categorize_first_meaningful (pathname : JSString) (pre post : List JSString)
    (s : JSString) (hstatic : ¬ isStaticAsset pathname)
    (hseg : segments pathname = pre ++ s :: post)
    (hpre : ∀ x ∈ pre, toLowerCase x ∈ skipSegments)
    (hs : toLowerCase s ∉ skipSegments) :
    findCategory (segments pathname) = some s ∧
    categorize pathname = some (orGeneral (cleanUp s)) ∧
    ∀ (other : JSString) (post2 : List JSString), ¬ isStaticAsset other →
      segments other = pre ++ s :: post2 → categorize other = categorize pathname := by
  have key : ∀ (p : JSString) (q : List JSString), ¬ isStaticAsset p →
      segments p = pre ++ s :: q → categorize p = some (orGeneral (cleanUp s)) := by
    intro p q hp hq
    have hne : s ≠ [] := mem_segments_ne_nil p s (by rw [hq]; simp)
    rw [categorize_of_not_static p hp, hq, findCategory_append pre q s hpre hs]
    simp [hne]
  refine ⟨by rw [hseg]; exact findCategory_append pre post s hpre hs,
    key pathname post hstatic hseg, ?_⟩
  intro other post2 ho hso
  rw [key other post2 ho hso, key pathname post hstatic hseg]

theorem categorize_first_meaningful_witness :
    findCategory (segments "/api/v2/billing/invoice.json".toList) = some "billing".toList ∧
    categorize "/api/v2/billing/invoice.json".toList = some "Billing".toList :=
  have h := categorize_first_meaningful "/api/v2/billing/invoice.json".toList
    ["api".toList, "v2".toList] ["invoice.json".toList] "billing".toList
    (by decide) (by decide) (by decide) (by decide)
  ⟨h.1, h.2.1.trans (by decide)⟩

/-- C3: a pathname that is not a static asset and all of whose non-empty
segments are wrappers (in any letter case) is categorised as `General`. -/
theorem categorize_general (pathname : JSString) (hstatic : ¬ isStaticAsset pathname)
    (hall : ∀ x ∈ segments pathname, toLowerCase x ∈ skipSegments) :
    categorize pathname = some "General".toList := by
  rw [categorize_of_not_static pathname hstatic, findCategory_eq_none _ hall]

theorem categorize_general_witness :
    categorize "/API/v1".toList = some "General".toList ∧
    categorize "/".toList = some "General".toList ∧
    categorize [] = some "General".toList :=
  ⟨categorize_general "/API/v1".toList (by decide) (by decide),
   categorize_general "/".toList (by decide) (by decide),
   categorize_general [] (by decide) (by decide)⟩

/-! ## The clean-up against the specification of the normalisation -/

theorem isUpper_not_isLower (c : Char) (h : c.isUpper = true) : c.isLower = false := by
  simp only [Char.isUpper, Char.isLower, Bool.and_eq_true, decide_eq_true_eq,
    Bool.and_eq_false_imp] at *
  intro h1
  have h2 := h.2
  rw [ge_iff_le, UInt32.le_def] at h1
  rw [UInt32.le_def] at h2
  rw [BitVec.le_def] at h1 h2
  simp at h1 h2
  omega

theorem takeWhile_append_stop {α : Type} (p : α → Bool) (l r : List α) (a : α)
    (hl : ∀ x ∈ l, p x = true) (ha : p a = false) : (l ++ a :: r).takeWhile p = l := by
  induction l with
  | nil => simp [List.takeWhile, ha]
  | cons b t ih =>
    have hb := hl b (List.mem_cons_self _ _)
    simp only [List.cons_append, List.takeWhile, hb, List.cons.injEq, true_and]
    exact ih (fun x hx => hl x (List.mem_cons_of_mem _ hx))

theorem dropWhile_append_stop {α : Type} (p : α → Bool) (l r : List α) (a : α)
    (hl : ∀ x ∈ l, p x = true) (ha : p a = false) : (l ++ a :: r).dropWhile p = a :: r := by
  induction l with
  | nil => simp [List.dropWhile, ha]
  | cons b t ih =>
    have hb := hl b (List.mem_cons_self _ _)
    simp only [List.cons_append, List.dropWhile, hb]
    exact ih (fun x hx => hl x (List.mem_cons_of_mem _ hx))

theorem exists_last_dot (s : JSString) (h : '.' ∈ s) :
    ∃ pre ext, s = pre ++ '.' :: ext ∧ '.' ∉ ext := by
  induction s with
  | nil => simp at h
  | cons c cs ih =>
    by_cases hcs : '.' ∈ cs
    · obtain ⟨pre, ext, he, hn⟩ := ih hcs
      exact ⟨c :: pre, ext, by rw [he]; rfl, hn⟩
    · have hc : c = '.' := by
        rcases List.mem_cons.mp h with h1 | h1
        · exact h1.symm
        · exact absurd h1 hcs
      exact ⟨[], cs, by rw [hc]; rfl, hcs⟩

theorem stripExt_of_not_mem (s : JSString) (h : '.' ∉ s) : stripExt s = s := by
  induction s with
  | nil => rfl
  | cons c cs ih =>
    simp only [List.mem_cons, not_or] at h
    have hc : c ≠ '.' := fun e => h.1 e.symm
    simp [stripExt, hc, ih h.2]

theorem stripExt_append_dot (pre ext : JSString) (hn : '.' ∉ ext) :
    stripExt (pre ++ '.' :: ext) = if ext = [] then pre ++ ['.'] else pre := by
  induction pre with
  | nil =>
    by_cases he : ext = []
    · simp [stripExt, he]
    · simp [stripExt, he, hn]
  | cons c cs ih =>
    have hmem : '.' ∈ cs ++ '.' :: ext := by simp
    have hcond : ¬ (c = '.' ∧ cs ++ '.' :: ext ≠ [] ∧ '.' ∉ cs ++ '.' :: ext) :=
      fun hh => hh.2.2 hmem
    rw [List.cons_append, stripExt, if_neg hcond, ih]
    split_ifs <;> rfl

theorem specStripExt_of_not_mem (s : JSString) (h : '.' ∉ s) : specStripExt s = s := by
  have hd : s.reverse.dropWhile (fun c => c ≠ '.') = [] := by
    rw [List.dropWhile_eq_nil_iff]
    intro x hx
    have hx2 : x ∈ s := List.mem_reverse.mp hx
    simpa using fun e : x = '.' => h (e ▸ hx2)
  unfold specStripExt
  rw [hd]

theorem specStripExt_append_dot (pre ext : JSString) (hn : '.' ∉ ext) :
    specStripExt (pre ++ '.' :: ext) = if ext = [] then pre ++ ['.'] else pre := by
  have hrev : (pre ++ '.' :: ext).reverse = ext.reverse ++ '.' :: pre.reverse := by simp
  have hall : ∀ x ∈ ext.reverse, (fun c : Char => decide (c ≠ '.')) x = true := by
    intro x hx
    have hx2 : x ∈ ext := List.mem_reverse.mp hx
    simpa using fun e : x = '.' => hn (e ▸ hx2)
  have hstop : (fun c : Char => decide (c ≠ '.')) '.' = false := by simp
  have ht := takeWhile_append_stop _ ext.reverse pre.reverse '.' hall hstop
  have hd := dropWhile_append_stop _ ext.reverse pre.reverse '.' hall hstop
  unfold specStripExt
  rw [hrev, ht, hd]
  by_cases he : ext = []
  · simp [he]
  · simp [he]

theorem stripExt_eq_spec (s : JSString) : stripExt s = specStripExt s := by
  by_cases h : '.' ∈ s
  · obtain ⟨pre, ext, he, hn⟩ := exists_last_dot s h
    rw [he, stripExt_append_dot pre ext hn, specStripExt_append_dot pre ext hn]
  · rw [stripExt_of_not_mem s h, specStripExt_of_not_mem s h]

theorem specCamelSplit_cons_upper (b : Char) (rest : JSString) (hb : b.isUpper = true) :
    specCamelSplit (b :: rest) = b :: specCamelSplit rest := by
  cases rest with
  | nil => rfl
  | cons c r => simp [specCamelSplit, isUpper_not_isLower b hb]

theorem camelSplit_eq_spec : ∀ s : JSString, camelSplit s = specCamelSplit s
  | [] => rfl
  | [_] => rfl
  | a :: b :: rest => by
    by_cases hab : a.isLower = true ∧ b.isUpper = true
    · simp only [camelSplit, specCamelSplit, hab, and_self, if_true,
        specCamelSplit_cons_upper b rest hab.2, camelSplit_eq_spec rest]
    · simp only [camelSplit, specCamelSplit, hab, if_false, camelSplit_eq_spec (b :: rest)]

theorem titleCaseFrom_eq_zipWith (s : JSString) (prev : Option Char) :
    titleCaseFrom (prev.any isWordChar) s =
      List.zipWith
        (fun (c : Char) (prev : Option Char) =>
          if isWordChar c && !(prev.any isWordChar) then c.toUpper else c)
        s (prev :: s.map some) := by
  induction s generalizing prev with
  | nil => rfl
  | cons c cs ih =>
    have := ih (some c)
    simp only [Option.any_some] at this
    simp only [titleCaseFrom, List.map_cons, List.zipWith_cons_cons, this]

theorem titleCase_eq_word (s : JSString) : titleCase s = wordTitleCase s :=
  titleCaseFrom_eq_zipWith s none

theorem cleanUp_eq_wordNormalize (s : JSString) : cleanUp s = wordNormalize s := by
  simp only [cleanUp, wordNormalize, stripExt_eq_spec, camelSplit_eq_spec, titleCase_eq_word]

/-- C4, as stated, fails: the seed `foo.bar.baz` of `/foo.bar.baz/x` is
labelled `Foo.Bar`, with an uppercase `B` that does not start a
whitespace-delimited token, where the normalisation of the specification
gives `Foo.bar`. -/
theorem categorize_specNormalize_counterexample :
    ¬ isStaticAsset "/foo.bar.baz/x".toList ∧
    findCategory (segments "/foo.bar.baz/x".toList) = some "foo.bar.baz".toList ∧
    categorize "/foo.bar.baz/x".toList = some "Foo.Bar".toList ∧
    specNormalize "foo.bar.baz".toList = "Foo.bar".toList ∧
    categorize "/foo.bar.baz/x".toList ≠ some (specNormalize "foo.bar.baz".toList) := by
  decide

/-- C4, amended: for a pathname that is not a static asset and has seed `s`,
the label is the normalisation of `s` (or `General` when that is empty), where
the normalisation strips one trailing `.extension`, replaces `-` and `_` by
spaces, puts a space between a lowercase letter and an uppercase letter that
follows it, uppercases every word character that does not follow a word
character, and trims. -/
theorem categorize_wordNormalize (pathname s : JSString) (hstatic : ¬ isStaticAsset pathname)
    (hseed : findCategory (segments pathname) = some s) :
    categorize pathname = some (orGeneral (wordNormalize s)) := by
  have hne : s ≠ [] := mem_segments_ne_nil pathname s (findCategory_mem _ s hseed)
  rw [categorize_of_not_static pathname hstatic, hseed, ← cleanUp_eq_wordNormalize]
  simp [hne]

theorem categorize_wordNormalize_witness :
    categorize "/api/userProfile-v2.old.json/x".toList = some "User Profile V2.Old".toList :=
  (categorize_wordNormalize "/api/userProfile-v2.old.json/x".toList
    "userProfile-v2.old.json".toList (by decide) (by decide)).trans (by decide)

theorem categorize_returns (pathname : JSString) :
    ∃ label, categorize pathname = some label ∧ label ≠ [] := by
  by_cases hst : isStaticAsset pathname
  · obtain ⟨hint, hh, hm⟩ := hst
    exact ⟨"Static Asset".toList, by simp [categorize, hh, hm], by decide⟩
  · rw [categorize_of_not_static pathname hst]
    cases findCategory (segments pathname) with
    | none => exact ⟨_, rfl, by decide⟩
    | some c =>
      by_cases hc : c = []
      · exact ⟨"General".toList, by simp [hc], by decide⟩
      · exact ⟨orGeneral (cleanUp c), by simp [hc], orGeneral_ne_nil _⟩

/-- C5: `categorize` never throws and never returns the empty string; when
the clean-up of the seed of a non-static pathname is empty, as for the seeds
`-`, `_` and `.hidden`, the label is `General`. -/
theorem categorize_total (pathname : JSString) :
    (∃ label, categorize pathname = some label ∧ label ≠ []) ∧
    (∀ s, ¬ isStaticAsset pathname → findCategory (segments pathname) = some s →
      cleanUp s = [] → categorize pathname = some "General".toList) ∧
    cleanUp "-".toList = [] ∧ cleanUp "_".toList = [] ∧ cleanUp ".hidden".toList = [] := by
  refine ⟨categorize_returns pathname, ?_, by decide, by decide, by decide⟩
  intro s hst hf hclean
  rw [categorize_of_not_static pathname hst, hf]
  simp [hclean, orGeneral]

theorem categorize_total_witness :
    categorize "/api/.hidden/x".toList = some "General".toList :=
  (categorize_total "/api/.hidden/x".toList).2.1 ".hidden".toList
    (by decide) (by decide) (by decide)

/-! ## Statistics -/

theorem length_sortAsc (arr : List ℚ) : (sortAsc arr).length = arr.length :=
  List.length_insertionSort _ arr

theorem perm_sortAsc (arr : List ℚ) : (sortAsc arr).Perm arr :=
  List.perm_insertionSort _ arr

theorem sorted_sortAsc (arr : List ℚ) : (sortAsc arr).Sorted (fun a b => a ≤ b) :=
  List.sorted_insertionSort _ arr

theorem jsIndex_natCast {α : Type} (l : List α) (n : Nat) : jsIndex l (n : Int) = l[n]? := by
  simp [jsIndex]

theorem jsIndex_of_neg {α : Type} (l : List α) (i : Int) (h : i < 0) : jsIndex l i = none := by
  simp [jsIndex, h]

theorem jsIndex_of_ge {α : Type} (l : List α) (i : Int) (h : (l.length : Int) ≤ i) :
    jsIndex l i = none := by
  have h0 : ¬ i < 0 := by omega
  have h1 : l.length ≤ i.toNat := by omega
  simp [jsIndex, h0, h1]

theorem jsIndex_of_lt {α : Type} (l : List α) (k : Nat) (i : Int) (hk : (k : Int) = i)
    (h : k < l.length) : ∃ x, x ∈ l ∧ l[k]? = some x ∧ jsIndex l i = some x := by
  subst hk
  exact ⟨l[k], List.getElem_mem h, List.getElem?_eq_getElem h,
    by rw [jsIndex_natCast, List.getElem?_eq_getElem h]⟩

theorem one_le_ceil_rank (n : Nat) (p : ℚ) (hn : 0 < n) (hp : 0 < p) :
    1 ≤ ⌈(p / 100) * (n : ℚ)⌉ := by
  have hn2 : (0 : ℚ) < n := by exact_mod_cast hn
  have h : 0 < (p / 100) * (n : ℚ) := by positivity
  have := Int.ceil_pos.mpr h
  omega

theorem ceil_rank_le (n : Nat) (p : ℚ) (hp : p ≤ 100) : ⌈(p / 100) * (n : ℚ)⌉ ≤ (n : Int) := by
  rw [Int.ceil_le]
  have hn2 : (0 : ℚ) ≤ n := by exact_mod_cast Nat.zero_le n
  have h1 : p / 100 ≤ 1 := by linarith
  have := mul_le_mul_of_nonneg_right h1 hn2
  push_cast
  linarith

theorem ceil_rank_le_zero (n : Nat) (p : ℚ) (hp : p ≤ 0) : ⌈(p / 100) * (n : ℚ)⌉ ≤ 0 := by
  rw [Int.ceil_le]
  have hn2 : (0 : ℚ) ≤ n := by exact_mod_cast Nat.zero_le n
  have h1 : p / 100 ≤ 0 := by linarith
  have := mul_le_mul_of_nonneg_right h1 hn2
  push_cast
  linarith

theorem lt_ceil_rank (n : Nat) (p : ℚ) (hn : 0 < n) (hp : 100 < p) :
    (n : Int) < ⌈(p / 100) * (n : ℚ)⌉ := by
  rw [Int.lt_ceil]
  have hn2 : (0 : ℚ) < n := by exact_mod_cast hn
  have h1 : 1 < p / 100 := by linarith
  have := mul_lt_mul_of_pos_right h1 hn2
  push_cast
  linarith

theorem percentile_eq (arr : List ℚ) (p : ℚ) :
    percentile arr p = jsIndex (sortAsc arr) (⌈(p / 100) * (arr.length : ℚ)⌉ - 1) := by
  simp only [percentile, percentileOfSorted, length_sortAsc]

theorem percentile_in_range (arr : List ℚ) (p : ℚ) (hne : arr ≠ []) (hp0 : 0 < p)
    (hp1 : p ≤ 100) :
    ∃ k : Nat, (k : Int) = ⌈(p / 100) * (arr.length : ℚ)⌉ - 1 ∧ k < arr.length ∧
      ∃ x, x ∈ arr ∧ (sortAsc arr)[k]? = some x ∧ percentile arr p = some x := by
  have hn : 0 < arr.length := List.length_pos.mpr hne
  have h1 := one_le_ceil_rank arr.length p hn hp0
  have h2 := ceil_rank_le arr.length p hp1
  refine ⟨(⌈(p / 100) * (arr.length : ℚ)⌉ - 1).toNat, by omega, by omega, ?_⟩
  have hk : (⌈(p / 100) * (arr.length : ℚ)⌉ - 1).toNat < (sortAsc arr).length := by
    rw [length_sortAsc]; omega
  obtain ⟨x, hx, hget, hidx⟩ := jsIndex_of_lt (sortAsc arr) _
    (⌈(p / 100) * (arr.length : ℚ)⌉ - 1) (by omega) hk
  exact ⟨x, (perm_sortAsc arr).mem_iff.mp hx, hget, by rw [percentile_eq, hidx]⟩

/-! ## Double arithmetic -/

theorem floor_le_roundHalfEven (x : ℚ) : ⌊x⌋ ≤ roundHalfEven x := by
  unfold roundHalfEven
  split_ifs <;> omega

theorem roundHalfEven_le_floor_add_one (x : ℚ) : roundHalfEven x ≤ ⌊x⌋ + 1 := by
  unfold roundHalfEven
  split_ifs <;> omega

theorem roundHalfEven_le (x : ℚ) (k : ℤ) (h : x ≤ k) : roundHalfEven x ≤ k := by
  rcases eq_or_lt_of_le h with heq | hlt
  · have hf : ⌊x⌋ = k := by rw [heq]; exact Int.floor_intCast k
    have hfr : x - ⌊x⌋ < 1 / 2 := by rw [hf, heq]; norm_num
    unfold roundHalfEven
    rw [if_pos hfr, hf]
  · have hf : ⌊x⌋ < k := Int.floor_lt.mpr hlt
    have := roundHalfEven_le_floor_add_one x
    omega

theorem le_roundHalfEven (x : ℚ) (k : ℤ) (h : (k : ℚ) ≤ x) : k ≤ roundHalfEven x :=
  le_trans (Int.le_floor.mpr h) (floor_le_roundHalfEven x)

theorem abs_roundHalfEven_sub_le (x : ℚ) : |(roundHalfEven x : ℚ) - x| ≤ 1 / 2 := by
  have h1 := Int.floor_le x
  have h2 := Int.lt_floor_add_one x
  unfold roundHalfEven
  rw [abs_le]
  split_ifs with ha hb hc
  · constructor <;> linarith
  · push_cast
    constructor <;> linarith
  · constructor <;> linarith
  · push_cast
    constructor <;> linarith

theorem roundHalfEven_eq (x : ℚ) (m : ℤ) (h1 : (m : ℚ) - 1 / 2 < x) (h2 : x < (m : ℚ) + 1 / 2) :
    roundHalfEven x = m := by
  have hb := abs_le.mp (abs_roundHalfEven_sub_le x)
  have hlt : ((roundHalfEven x : ℤ) : ℚ) < (m : ℚ) + 1 := by linarith [hb.2]
  have hgt : (m : ℚ) - 1 < ((roundHalfEven x : ℤ) : ℚ) := by linarith [hb.1]
  have h3 : roundHalfEven x < m + 1 := by exact_mod_cast hlt
  have h4 : m - 1 < roundHalfEven x := by exact_mod_cast hgt
  omega

theorem two_zpow_pos (e : ℤ) : (0 : ℚ) < 2 ^ e := zpow_pos (by norm_num) e

theorem binade_ge (x : ℚ) : -1022 ≤ binade x := le_max_right _ _

theorem binade_eq (x : ℚ) (e : ℤ) (hx : 0 < x) (he : -1022 ≤ e) (h1 : (2 : ℚ) ^ e ≤ x)
    (h2 : x < (2 : ℚ) ^ (e + 1)) : binade x = e := by
  have hlog : Int.log 2 x = e := by
    have ha : e ≤ Int.log 2 x := (Int.zpow_le_iff_le_log (by norm_num) hx).mp (by simpa using h1)
    have hb : Int.log 2 x < e + 1 := (Int.lt_zpow_iff_log_lt (by norm_num) hx).mp (by simpa using h2)
    omega
  unfold binade
  rw [abs_of_pos hx, hlog]
  exact max_eq_left he

theorem lt_two_zpow_binade (x : ℚ) (hx : 0 < x) : x < (2 : ℚ) ^ (binade x + 1) := by
  have h := Int.lt_zpow_succ_log_self (b := 2) (by norm_num) x
  have hle : Int.log 2 x + 1 ≤ binade x + 1 := by
    unfold binade
    rw [abs_of_pos hx]
    have := le_max_left (Int.log 2 x) (-1022)
    omega
  have h2 : (2 : ℚ) ^ (Int.log 2 x + 1) ≤ 2 ^ (binade x + 1) :=
    zpow_le_zpow_right₀ (by norm_num) hle
  have h3 : x < (2 : ℚ) ^ (Int.log 2 x + 1) := by simpa using h
  linarith

theorem two_zpow_binade_le (x : ℚ) (hx : 0 < x) (hb : -1022 < binade x) :
    (2 : ℚ) ^ binade x ≤ x := by
  have hlog : binade x = Int.log 2 x := by
    unfold binade at hb ⊢
    rw [abs_of_pos hx] at hb ⊢
    rcases le_total (Int.log 2 x) (-1022) with h | h
    · rw [max_eq_right h] at hb
      exact absurd hb (lt_irrefl _)
    · exact max_eq_left h
  rw [hlog]
  have h := Int.zpow_log_le_self (b := 2) (by norm_num) hx
  simpa using h

theorem toDouble_eval (x : ℚ) (e m : ℤ) (hx : 0 < x) (he : -1022 ≤ e) (h1 : (2 : ℚ) ^ e ≤ x)
    (h2 : x < (2 : ℚ) ^ (e + 1)) (hm1 : (m : ℚ) - 1 / 2 < x / 2 ^ (e - 52))
    (hm2 : x / 2 ^ (e - 52) < (m : ℚ) + 1 / 2) : toDouble x = (m : ℚ) * 2 ^ (e - 52) := by
  unfold toDouble
  rw [binade_eq x e hx he h1 h2, roundHalfEven_eq _ m hm1 hm2]

theorem toDouble_fraction7 : toDouble (7 / 100) = 5044031582654956 * 2 ^ (-56 : ℤ) := by
  have h := toDouble_eval (7 / 100) (-4) 5044031582654956 (by norm_num) (by norm_num)
    (by norm_num) (by norm_num) (by norm_num) (by norm_num)
  simpa using h



theorem double_cases (x y : ℚ) (hx : 0 < x) (hy : isDouble y) :
    (∃ k : ℤ, y = (k : ℚ) * 2 ^ (binade x - 52)) ∨
      (y < 2 ^ binade x ∧ (2 : ℚ) ^ binade x ≤ x) := by
  obtain ⟨m, q, hm, hq, rfl⟩ := hy
  by_cases hc : binade x - 52 ≤ q
  · left
    refine ⟨(m : ℤ) * 2 ^ (q - (binade x - 52)).toNat, ?_⟩
    have hq2 : q = (binade x - 52) + ((q - (binade x - 52)).toNat : ℤ) := by omega
    conv_lhs => rw [hq2]
    rw [zpow_add₀ (by norm_num : (2 : ℚ) ≠ 0), zpow_natCast]
    push_cast
    ring
  · right
    have hb : -1022 < binade x := by omega
    refine ⟨?_, two_zpow_binade_le x hx hb⟩
    have hm2 : (m : ℚ) < 2 ^ (53 : ℤ) := by
      have h3 : (2 : ℚ) ^ (53 : ℤ) = ((2 ^ 53 : ℕ) : ℚ) := by norm_num
      rw [h3]
      exact_mod_cast hm
    have hle : (2 : ℚ) ^ (53 + q) ≤ 2 ^ binade x :=
      zpow_le_zpow_right₀ (by norm_num) (by omega)
    calc (m : ℚ) * 2 ^ q < 2 ^ (53 : ℤ) * 2 ^ q :=
          mul_lt_mul_of_pos_right hm2 (two_zpow_pos q)
      _ = 2 ^ (53 + q) := by rw [zpow_add₀ (by norm_num : (2 : ℚ) ≠ 0)]
      _ ≤ 2 ^ binade x := hle

theorem toDouble_le_of_le (x y : ℚ) (hx : 0 < x) (hxy : x ≤ y) (hy : isDouble y) :
    toDouble x ≤ y := by
  have hu := two_zpow_pos (binade x - 52)
  rcases double_cases x y hx hy with ⟨k, hk⟩ | ⟨h1, h2⟩
  · have hdiv : x / 2 ^ (binade x - 52) ≤ (k : ℚ) := by
      rw [div_le_iff₀ hu, ← hk]
      exact hxy
    have hr := roundHalfEven_le _ k hdiv
    have hrq : ((roundHalfEven (x / 2 ^ (binade x - 52)) : ℤ) : ℚ) ≤ (k : ℚ) := by
      exact_mod_cast hr
    unfold toDouble
    rw [hk]
    exact mul_le_mul_of_nonneg_right hrq hu.le
  · linarith

theorem le_toDouble_of_le (x y : ℚ) (hx : 0 < x) (hyx : y ≤ x) (hy : isDouble y) :
    y ≤ toDouble x := by
  have hu := two_zpow_pos (binade x - 52)
  rcases double_cases x y hx hy with ⟨k, hk⟩ | ⟨h1, h2⟩
  · have hdiv : (k : ℚ) ≤ x / 2 ^ (binade x - 52) := by
      rw [le_div_iff₀ hu, ← hk]
      exact hyx
    have hr := le_roundHalfEven _ k hdiv
    have hrq : (k : ℚ) ≤ ((roundHalfEven (x / 2 ^ (binade x - 52)) : ℤ) : ℚ) := by
      exact_mod_cast hr
    unfold toDouble
    rw [hk]
    exact mul_le_mul_of_nonneg_right hrq hu.le
  · have hsplit : (2 : ℚ) ^ binade x = ((2 ^ 52 : ℤ) : ℚ) * 2 ^ (binade x - 52) := by
      have : binade x = 52 + (binade x - 52) := by ring
      conv_lhs => rw [this]
      rw [zpow_add₀ (by norm_num : (2 : ℚ) ≠ 0)]
      norm_num
    have hdiv : ((2 ^ 52 : ℤ) : ℚ) ≤ x / 2 ^ (binade x - 52) := by
      rw [le_div_iff₀ hu, ← hsplit]
      exact h2
    have hr := le_roundHalfEven _ _ hdiv
    have hrq : ((2 ^ 52 : ℤ) : ℚ) ≤ ((roundHalfEven (x / 2 ^ (binade x - 52)) : ℤ) : ℚ) := by
      exact_mod_cast hr
    have : (2 : ℚ) ^ binade x ≤ toDouble x := by
      unfold toDouble
      rw [hsplit]
      exact mul_le_mul_of_nonneg_right hrq hu.le
    linarith

theorem toDouble_rel_error (x : ℚ) (hx : (2 : ℚ) ^ (-1022 : ℤ) ≤ x) :
    |toDouble x - x| ≤ x * 2 ^ (-53 : ℤ) := by
  have hx0 : 0 < x := lt_of_lt_of_le (two_zpow_pos _) hx
  have hu := two_zpow_pos (binade x - 52)
  have hle : (2 : ℚ) ^ binade x ≤ x := by
    rcases eq_or_lt_of_le (binade_ge x) with h | h
    · rw [← h]; exact hx
    · exact two_zpow_binade_le x hx0 h
  have hr := abs_roundHalfEven_sub_le (x / 2 ^ (binade x - 52))
  have heq : toDouble x - x =
      ((roundHalfEven (x / 2 ^ (binade x - 52)) : ℚ) - x / 2 ^ (binade x - 52)) *
        2 ^ (binade x - 52) := by
    unfold toDouble
    field_simp
  rw [heq, abs_mul, abs_of_pos hu]
  have hhalf : (1 / 2 : ℚ) * 2 ^ (binade x - 52) = 2 ^ binade x * 2 ^ (-53 : ℤ) := by
    have : binade x - 52 = binade x + (-52) := by ring
    rw [this, zpow_add₀ (by norm_num : (2 : ℚ) ≠ 0)]
    norm_num
    ring
  calc |(roundHalfEven (x / 2 ^ (binade x - 52)) : ℚ) - x / 2 ^ (binade x - 52)| *
        2 ^ (binade x - 52) ≤ (1 / 2) * 2 ^ (binade x - 52) :=
        mul_le_mul_of_nonneg_right hr hu.le
    _ = 2 ^ binade x * 2 ^ (-53 : ℤ) := hhalf
    _ ≤ x * 2 ^ (-53 : ℤ) := mul_le_mul_of_nonneg_right hle (two_zpow_pos _).le


theorem isDouble_natCast (n : ℕ) (h : n < 2 ^ 53) : isDouble (n : ℚ) :=
  ⟨n, 0, h, by norm_num, by simp⟩

theorem isDouble_one : isDouble 1 := ⟨1, 0, by norm_num, by norm_num, by simp⟩

theorem isDouble_least : isDouble ((2 : ℚ) ^ (-1074 : ℤ)) :=
  ⟨1, -1074, by norm_num, le_refl _, by simp⟩

theorem toDouble_fraction95 : toDouble (95 / 100) = 8556839292003942 * 2 ^ (-53 : ℤ) := by
  have h := toDouble_eval (95 / 100) (-1) 8556839292003942 (by norm_num) (by norm_num)
    (by norm_num) (by norm_num) (by norm_num) (by norm_num)
  simpa using h

theorem least_le_toDouble (x : ℚ) (hx : (2 : ℚ) ^ (-1075 : ℤ) < x) :
    (2 : ℚ) ^ (-1074 : ℤ) ≤ toDouble x := by
  have hx0 : 0 < x := lt_trans (two_zpow_pos _) hx
  by_cases h : (2 : ℚ) ^ (-1074 : ℤ) ≤ x
  · exact le_toDouble_of_le x _ hx0 h isDouble_least
  · have hlt : x < (2 : ℚ) ^ (-1074 : ℤ) := not_le.mp h
    have hlog : Int.log 2 x < -1074 := (Int.lt_zpow_iff_log_lt (by norm_num) hx0).mp (by simpa using hlt)
    have hb : binade x - 52 = -1074 := by
      have : binade x = -1022 := by
        unfold binade
        rw [abs_of_pos hx0]
        exact max_eq_right (by omega)
      omega
    have hu : (0 : ℚ) < 2 ^ (-1074 : ℤ) := two_zpow_pos _
    have hhalf : (2 : ℚ) ^ (-1075 : ℤ) = (1 / 2) * 2 ^ (-1074 : ℤ) := by
      have : (-1075 : ℤ) = -1 + -1074 := by norm_num
      rw [this, zpow_add₀ (by norm_num : (2 : ℚ) ≠ 0)]
      norm_num
    rw [hhalf] at hx
    unfold toDouble
    rw [hb]
    generalize (2 : ℚ) ^ (-1074 : ℤ) = u at hx hlt hu ⊢
    have hr : roundHalfEven (x / u) = 1 := by
      apply roundHalfEven_eq
      · rw [lt_div_iff₀ hu]
        push_cast
        linarith
      · rw [div_lt_iff₀ hu]
        push_cast
        linarith
    rw [hr]
    simp

theorem rank_double_bounds (n : ℕ) (p : ℚ) (hn : 0 < n) (hlen : n < 2 ^ 53)
    (hp0 : 100 * (2 : ℚ) ^ (-1075 : ℤ) < p) (hp1 : p ≤ 100) :
    1 ≤ ⌈toDouble (toDouble (p / 100) * (n : ℚ))⌉ ∧
      ⌈toDouble (toDouble (p / 100) * (n : ℚ))⌉ ≤ (n : ℤ) := by
  have hnq : (1 : ℚ) ≤ (n : ℚ) := by exact_mod_cast hn
  have hx : (2 : ℚ) ^ (-1075 : ℤ) < p / 100 := by
    rw [lt_div_iff₀ (by norm_num : (0 : ℚ) < 100)]
    linarith
  have hx0 : 0 < p / 100 := lt_trans (two_zpow_pos _) hx
  have hd1 := least_le_toDouble (p / 100) hx
  have hd2 : toDouble (p / 100) ≤ 1 :=
    toDouble_le_of_le _ 1 hx0 (by rw [div_le_one (by norm_num)]; exact hp1) isDouble_one
  have hl := two_zpow_pos (-1074)
  have hd0 : 0 < toDouble (p / 100) := lt_of_lt_of_le hl hd1
  have hprod0 : 0 < toDouble (p / 100) * (n : ℚ) := by positivity
  have hprod1 : (2 : ℚ) ^ (-1074 : ℤ) ≤ toDouble (p / 100) * (n : ℚ) :=
    le_trans hd1 (le_mul_of_one_le_right (le_of_lt hd0) hnq)
  have hprod2 : toDouble (p / 100) * (n : ℚ) ≤ (n : ℚ) :=
    mul_le_of_le_one_left (by positivity) hd2
  have hr1 := le_toDouble_of_le _ _ hprod0 hprod1 isDouble_least
  have hr2 := toDouble_le_of_le _ _ hprod0 hprod2 (isDouble_natCast n hlen)
  constructor
  · have : 0 < ⌈toDouble (toDouble (p / 100) * (n : ℚ))⌉ := Int.ceil_pos.mpr (lt_of_lt_of_le hl hr1)
    omega
  · rw [Int.ceil_le]
    exact_mod_cast hr2

theorem rank_bounds_of_fraction (d : ℚ) (n : ℕ) (hn : 0 < n) (hd1 : 1 / 2 ≤ d) (hd2 : d ≤ 19 / 20) :
    1 ≤ ⌈toDouble (d * (n : ℚ))⌉ ∧ ⌈toDouble (d * (n : ℚ))⌉ ≤ (n : ℤ) := by
  have hnq : (1 : ℚ) ≤ (n : ℚ) := by exact_mod_cast hn
  have hx1 : (1 : ℚ) / 2 ≤ d * (n : ℚ) := by nlinarith
  have hx2 : d * (n : ℚ) ≤ 19 / 20 * (n : ℚ) := by nlinarith
  have hsmall : (2 : ℚ) ^ (-1022 : ℤ) ≤ 1 / 2 := by
    have : (2 : ℚ) ^ (-1022 : ℤ) ≤ 2 ^ (-1 : ℤ) := zpow_le_zpow_right₀ (by norm_num) (by norm_num)
    simpa using this
  have herr := abs_le.mp (toDouble_rel_error _ (le_trans hsmall hx1))
  have h53 : (2 : ℚ) ^ (-53 : ℤ) ≤ 1 / 100 := by norm_num
  have h53p : (0 : ℚ) < 2 ^ (-53 : ℤ) := two_zpow_pos _
  generalize (2 : ℚ) ^ (-53 : ℤ) = u at herr h53 h53p
  generalize toDouble (d * (n : ℚ)) = r at herr ⊢
  generalize d * (n : ℚ) = x at herr hx1 hx2
  constructor
  · have : 0 < ⌈r⌉ := Int.ceil_pos.mpr (by nlinarith [herr.1])
    omega
  · rw [Int.ceil_le]
    push_cast
    nlinarith [herr.2]

theorem rank95_bounds (n : ℕ) (hn : 0 < n) :
    1 ≤ ⌈toDouble (toDouble (95 / 100) * (n : ℚ))⌉ ∧
      ⌈toDouble (toDouble (95 / 100) * (n : ℚ))⌉ ≤ (n : ℤ) := by
  rw [toDouble_fraction95]
  exact rank_bounds_of_fraction _ n hn (by norm_num) (by norm_num)

theorem rank_exact_of_fraction (d : ℚ) (n : ℕ) (hlen : n < 2 ^ 48) (hd1 : d ≤ 19 / 20)
    (hd2 : (19 / 20 - d) * 2 ^ 48 ≤ 1 / 64) (hd0 : 0 < d) :
    ⌈toDouble (d * (n : ℚ))⌉ = ⌈(19 / 20 : ℚ) * (n : ℚ)⌉ := by
  rcases Nat.eq_zero_or_pos n with h0 | hn
  · subst h0
    simp [toDouble, roundHalfEven]
  have hnq : (1 : ℚ) ≤ (n : ℚ) := by exact_mod_cast hn
  have hnlt : (n : ℚ) < 2 ^ 48 := by exact_mod_cast hlen
  have hx0 : 0 < d * (n : ℚ) := by positivity
  have hc1 : (19 / 20 : ℚ) * (n : ℚ) ≤ (⌈(19 / 20 : ℚ) * (n : ℚ)⌉ : ℚ) := Int.le_ceil _
  have hc2 : (⌈(19 / 20 : ℚ) * (n : ℚ)⌉ : ℚ) < (19 / 20 : ℚ) * (n : ℚ) + 1 := Int.ceil_lt_add_one _
  have hcpos : 0 < ⌈(19 / 20 : ℚ) * (n : ℚ)⌉ := Int.ceil_pos.mpr (by positivity)
  have hcn : ⌈(19 / 20 : ℚ) * (n : ℚ)⌉ ≤ (n : ℤ) := by
    rw [Int.ceil_le]
    push_cast
    linarith
  generalize ⌈(19 / 20 : ℚ) * (n : ℚ)⌉ = c at hc1 hc2 hcpos hcn ⊢
  have hint : 20 * (c - 1) + 1 ≤ 19 * (n : ℤ) := by
    have h : ((20 * (c - 1) : ℤ) : ℚ) < ((19 * (n : ℤ) : ℤ) : ℚ) := by push_cast; linarith
    have h2 : 20 * (c - 1) < 19 * (n : ℤ) := by exact_mod_cast h
    omega
  have hintq : (20 : ℚ) * ((c : ℚ) - 1) + 1 ≤ 19 * (n : ℚ) := by exact_mod_cast hint
  have hc48 : c < 2 ^ 48 := lt_of_le_of_lt hcn (by exact_mod_cast hlen)
  have hxc : d * (n : ℚ) ≤ (c : ℚ) := by nlinarith
  have hcd : isDouble (c : ℚ) := by
    refine ⟨c.toNat, 0, by omega, by norm_num, ?_⟩
    have h : ((c.toNat : ℤ) : ℚ) = (c : ℚ) := by rw [Int.toNat_of_nonneg (by omega)]
    have h2 : ((c.toNat : ℕ) : ℚ) = (c : ℚ) := by exact_mod_cast h
    rw [h2]
    simp
  have hup := toDouble_le_of_le _ c hx0 hxc hcd
  have hy : isDouble ((c : ℚ) - 1 + 1 / 32) := by
    refine ⟨(32 * (c - 1) + 1).toNat, -5, by omega, by norm_num, ?_⟩
    have h : (((32 * (c - 1) + 1).toNat : ℤ) : ℚ) = ((32 * (c - 1) + 1 : ℤ) : ℚ) := by
      rw [Int.toNat_of_nonneg (by omega)]
    have h2 : (((32 * (c - 1) + 1).toNat : ℕ) : ℚ) = ((32 * (c - 1) + 1 : ℤ) : ℚ) := by
      exact_mod_cast h
    rw [h2]
    have h5 : (2 : ℚ) ^ (-5 : ℤ) = 1 / 32 := by norm_num
    rw [h5]
    push_cast
    ring
  have hyx : (c : ℚ) - 1 + 1 / 32 ≤ d * (n : ℚ) := by
    have hsmall : (19 / 20 - d) * (n : ℚ) ≤ 1 / 64 := by
      have hnn : (0 : ℚ) ≤ 19 / 20 - d := by linarith
      nlinarith
    nlinarith
  have hlow := le_toDouble_of_le _ _ hx0 hyx hy
  apply le_antisymm
  · rw [Int.ceil_le]
    exact hup
  · rw [Int.le_ceil_iff]
    linarith

theorem rank95_exact (n : ℕ) (hlen : n < 2 ^ 48) :
    ⌈toDouble (toDouble (95 / 100) * (n : ℚ))⌉ = ⌈(95 / 100 : ℚ) * (n : ℚ)⌉ := by
  rw [toDouble_fraction95]
  have h := rank_exact_of_fraction (8556839292003942 * 2 ^ (-53 : ℤ)) n hlen (by norm_num)
    (by norm_num) (by norm_num)
  rw [h]
  norm_num

/-! ## Claims on `median` and `percentile` -/

/-- C6: on a non-empty sequence `median` returns the middle element of the
ascending sort when the count is odd, and the mean of its two central
elements when the count is even. -/
theorem median_parity (arr : List ℚ) (hne : arr ≠ []) :
    ∃ sorted : List ℚ, sorted.Perm arr ∧ sorted.Sorted (fun a b => a ≤ b) ∧
      (arr.length % 2 = 1 →
        ∃ m, sorted[arr.length / 2]? = some m ∧ median arr = some m) ∧
      (arr.length % 2 = 0 →
        ∃ a b, sorted[arr.length / 2 - 1]? = some a ∧ sorted[arr.length / 2]? = some b ∧
          median arr = some ((a + b) / 2)) := by
  have hn : 0 < arr.length := List.length_pos.mpr hne
  have hlen := length_sortAsc arr
  refine ⟨sortAsc arr, perm_sortAsc arr, sorted_sortAsc arr, ?_, ?_⟩
  · intro hodd
    have hlt : arr.length / 2 < (sortAsc arr).length := by omega
    refine ⟨(sortAsc arr)[arr.length / 2], List.getElem?_eq_getElem hlt, ?_⟩
    have hc : arr.length % 2 ≠ 0 := by omega
    simp only [median, medianOfSorted, hlen, if_pos hc, jsIndex_natCast]
    exact List.getElem?_eq_getElem hlt
  · intro heven
    have hlt : arr.length / 2 < (sortAsc arr).length := by omega
    have hlt2 : arr.length / 2 - 1 < (sortAsc arr).length := by omega
    refine ⟨(sortAsc arr)[arr.length / 2 - 1], (sortAsc arr)[arr.length / 2],
      List.getElem?_eq_getElem hlt2, List.getElem?_eq_getElem hlt, ?_⟩
    have hc : ¬ arr.length % 2 ≠ 0 := by omega
    have hcast : ((arr.length / 2 : Nat) : Int) - 1 = ((arr.length / 2 - 1 : Nat) : Int) := by
      omega
    simp only [median, medianOfSorted, hlen, if_neg hc, hcast, jsIndex_natCast,
      List.getElem?_eq_getElem hlt, List.getElem?_eq_getElem hlt2]

theorem median_parity_witness :
    median [1, 3] = some 2 ∧ median [1, 2, 3] = some 2 ∧
    ∃ sorted : List ℚ, sorted.Perm [3, 1] ∧ sorted.Sorted (fun a b => a ≤ b) ∧
      (2 % 2 = 1 → ∃ m, sorted[2 / 2]? = some m ∧ median [3, 1] = some m) ∧
      (2 % 2 = 0 → ∃ a b, sorted[2 / 2 - 1]? = some a ∧ sorted[2 / 2]? = some b ∧
          median [3, 1] = some ((a + b) / 2)) :=
  ⟨by norm_num [median, medianOfSorted, sortAsc, jsIndex, List.insertionSort,
      List.orderedInsert],
   by decide, median_parity [3, 1] (by simp)⟩

theorem percentileDouble_eq (arr : List ℚ) (p : ℚ) :
    percentileDouble arr p =
      jsIndex (sortAsc arr) (⌈toDouble (toDouble (p / 100) * (arr.length : ℚ))⌉ - 1) := by
  simp only [percentileDouble, percentileOfSortedDouble, length_sortAsc]

theorem percentileDouble95_eq (arr : List ℚ) (hlen : arr.length < 2 ^ 48) :
    percentileDouble arr 95 = percentile arr 95 := by
  rw [percentileDouble_eq, percentile_eq, rank95_exact arr.length hlen]

theorem sortAsc_of_sorted (l : List ℚ) (h : l.Sorted (fun a b => a ≤ b)) : sortAsc l = l :=
  List.Sorted.insertionSort_eq h

theorem sorted_oneTo (n : Nat) : (oneTo n).Sorted (fun a b => a ≤ b) := by
  unfold List.Sorted oneTo
  rw [List.pairwise_map]
  refine (List.pairwise_le_range n).imp ?_
  intro a b hab
  have : (a : ℚ) ≤ (b : ℚ) := by exact_mod_cast hab
  linarith

theorem rank7_of_100 : ⌈toDouble (toDouble (7 / 100) * ((100 : ℕ) : ℚ))⌉ = 8 := by
  rw [toDouble_fraction7]
  have h := toDouble_eval (5044031582654956 * 2 ^ (-56 : ℤ) * ((100 : ℕ) : ℚ)) 2
    7881299347898369 (by norm_num) (by norm_num) (by norm_num) (by norm_num) (by norm_num)
    (by norm_num)
  rw [h, Int.ceil_eq_iff]
  norm_num

/-- C7, as stated, fails: for `p = 7` on the hundred numbers `1, 2, …, 100`
the claim gives the element at index `ceil((7/100)·100) − 1 = 6` of the sort,
which is `7`.  Line 268 computes `(7 / 100) * 100` in doubles, where it is
`7.000000000000001`, takes the index `7`, and `percentile` returns `8`. -/
theorem percentile_rank_counterexample :
    percentileDouble (oneTo 100) 7 = some 8 ∧
    ⌈(7 / 100 : ℚ) * ((oneTo 100).length : ℚ)⌉ - 1 = 6 ∧
    (sortAsc (oneTo 100))[6]? = some 7 := by
  have hs := sortAsc_of_sorted _ (sorted_oneTo 100)
  have hlen : (oneTo 100).length = 100 := by simp [oneTo]
  refine ⟨?_, ?_, ?_⟩
  · rw [percentileDouble_eq, hlen, rank7_of_100, hs]
    simp only [jsIndex, oneTo]
    norm_num
    show ((7 : ℕ) : ℚ) + 1 = 8
    norm_num
  · have h : ⌈(7 / 100 : ℚ) * ((100 : ℕ) : ℚ)⌉ = 7 := by rw [Int.ceil_eq_iff]; norm_num
    rw [hlen, h]
    norm_num
  · rw [hs]
    simp only [oneTo]
    norm_num

/-- C7, amended: on a non-empty sequence of `n < 2^32` numbers and for a
percentage `50·2^-1074 < p ≤ 100` (every `p` whose hundredth does not round
to zero), `percentile` returns the element of the ascending sort at index
`ceil(d) − 1`, where `d` is the product `(p / 100) * n` as line 268 computes
it, the quotient and the product each rounded to a double; that index lies
in `[0, n−1]`.  For `p = 95`, the percentage of both calls of `addSheet`, it
is `ceil((95/100)·n) − 1`. -/
theorem percentile_double_rank (arr : List ℚ) (p : ℚ) (hne : arr ≠ [])
    (hlen : arr.length < 2 ^ 32) (hp0 : 100 * (2 : ℚ) ^ (-1075 : ℤ) < p) (hp1 : p ≤ 100) :
    (∃ sorted : List ℚ, sorted.Perm arr ∧ sorted.Sorted (fun a b => a ≤ b) ∧
      ∃ k : Nat, (k : Int) = ⌈toDouble (toDouble (p / 100) * (arr.length : ℚ))⌉ - 1 ∧
        k < arr.length ∧ ∃ x, sorted[k]? = some x ∧ percentileDouble arr p = some x) ∧
    (p = 95 → ⌈toDouble (toDouble (p / 100) * (arr.length : ℚ))⌉ =
      ⌈(95 / 100 : ℚ) * (arr.length : ℚ)⌉) := by
  have hn : 0 < arr.length := List.length_pos.mpr hne
  have hb := rank_double_bounds arr.length p hn (lt_trans hlen (by norm_num)) hp0 hp1
  constructor
  · have hk : (⌈toDouble (toDouble (p / 100) * (arr.length : ℚ))⌉ - 1).toNat <
        (sortAsc arr).length := by
      rw [length_sortAsc]; omega
    obtain ⟨x, _, hget, hidx⟩ := jsIndex_of_lt (sortAsc arr) _
      (⌈toDouble (toDouble (p / 100) * (arr.length : ℚ))⌉ - 1) (Int.toNat_of_nonneg (by omega)) hk
    refine ⟨sortAsc arr, perm_sortAsc arr, sorted_sortAsc arr, _, Int.toNat_of_nonneg (by omega),
      by rw [length_sortAsc] at hk; exact hk, x, hget, ?_⟩
    rw [percentileDouble_eq, hidx]
  · intro h95
    rw [h95]
    exact rank95_exact arr.length (lt_trans hlen (by norm_num))

theorem percentile_double_rank_witness :
    percentileDouble [10, 20, 30, 40, 50] 95 = some 50 ∧
    percentileDouble [1, 2, 3, 4] 95 = some 4 := by
  have h5 : ⌈(95 / 100 : ℚ) * ((5 : ℕ) : ℚ)⌉ = 5 := by rw [Int.ceil_eq_iff]; norm_num
  have h4 : ⌈(95 / 100 : ℚ) * ((4 : ℕ) : ℚ)⌉ = 4 := by rw [Int.ceil_eq_iff]; norm_num
  have hs5 : sortAsc [10, 20, 30, 40, 50] = [10, 20, 30, 40, 50] := by decide
  have hs4 : sortAsc [1, 2, 3, 4] = [1, 2, 3, 4] := by decide
  have hp : 100 * (2 : ℚ) ^ (-1075 : ℤ) < 95 := by
    have h : (2 : ℚ) ^ (-1075 : ℤ) ≤ 2 ^ (-1 : ℤ) :=
      zpow_le_zpow_right₀ (by norm_num) (by norm_num)
    have h2 : (2 : ℚ) ^ (-1 : ℤ) = 1 / 2 := by norm_num
    rw [h2] at h
    calc 100 * (2 : ℚ) ^ (-1075 : ℤ) ≤ 100 * (1 / 2) := mul_le_mul_of_nonneg_left h (by norm_num)
      _ < 95 := by norm_num
  constructor
  · obtain ⟨⟨sorted, hperm, hsorted, k, hk, _, x, hx, hper⟩, hrank⟩ :=
      percentile_double_rank [10, 20, 30, 40, 50] 95 (by simp) (by norm_num [List.length]) hp
        (by norm_num)
    have hsort : sorted = [10, 20, 30, 40, 50] := by
      have := List.eq_of_perm_of_sorted (hperm.trans (perm_sortAsc _).symm) hsorted
        (sorted_sortAsc _)
      rw [this, hs5]
    have hk4 : k = 4 := by
      have h := hrank rfl
      rw [h] at hk
      have : (k : Int) = ⌈(95 / 100 : ℚ) * ((5 : ℕ) : ℚ)⌉ - 1 := hk
      rw [h5] at this
      omega
    subst hsort hk4
    simp at hx
    rw [hper, ← hx]
  · obtain ⟨⟨sorted, hperm, hsorted, k, hk, _, x, hx, hper⟩, hrank⟩ :=
      percentile_double_rank [1, 2, 3, 4] 95 (by simp) (by norm_num [List.length]) hp
        (by norm_num)
    have hsort : sorted = [1, 2, 3, 4] := by
      have := List.eq_of_perm_of_sorted (hperm.trans (perm_sortAsc _).symm) hsorted
        (sorted_sortAsc _)
      rw [this, hs4]
    have hk3 : k = 3 := by
      have h := hrank rfl
      rw [h] at hk
      have : (k : Int) = ⌈(95 / 100 : ℚ) * ((4 : ℕ) : ℚ)⌉ - 1 := hk
      rw [h4] at this
      omega
    subst hsort hk3
    simp at hx
    rw [hper, ← hx]

/-- C8, as stated, fails: the index is not clamped, and on `[1, 2, 3]` the
call with `p = 0` reads index `-1` and the call with `p = 101` reads index
`3`; both return `undefined`, not the minimum `1` or the maximum `3`. -/
theorem percentile_clamp_counterexample :
    percentile [1, 2, 3] 0 = none ∧ percentile [1, 2, 3] 101 = none ∧
    percentile [1, 2, 3] 0 ≠ some 1 ∧ percentile [1, 2, 3] 101 ≠ some 3 := by
  have hs : sortAsc [1, 2, 3] = [1, 2, 3] := by decide
  have h0 : percentile [1, 2, 3] 0 = none := by
    rw [percentile_eq]
    exact jsIndex_of_neg _ _ (by norm_num)
  have h101 : percentile [1, 2, 3] 101 = none := by
    have h : ⌈(101 / 100 : ℚ) * (([1, 2, 3] : List ℚ).length : ℚ)⌉ = 4 := by
      rw [Int.ceil_eq_iff]; norm_num
    rw [percentile_eq, h, hs]
    decide
  refine ⟨h0, h101, ?_, ?_⟩
  · rw [h0]; exact fun h => Option.noConfusion h
  · rw [h101]; exact fun h => Option.noConfusion h

/-- C8, amended: on a non-empty sequence of length `n` the index
`ceil((p/100)·n) − 1` is used as it is.  For `0 < p ≤ 100` it lies in
`[0, n−1]` and `percentile` returns an element of the sequence; for `p ≤ 0`
and for `p > 100` it lies outside and `percentile` returns `undefined`. -/
theorem percentile_unclamped (arr : List ℚ) (p : ℚ) (hne : arr ≠ []) :
    (0 < p ∧ p ≤ 100 → ∃ x, x ∈ arr ∧ percentile arr p = some x) ∧
    (p ≤ 0 ∨ 100 < p → percentile arr p = none) := by
  have hn : 0 < arr.length := List.length_pos.mpr hne
  constructor
  · rintro ⟨hp0, hp1⟩
    obtain ⟨k, _, _, x, hx, _, hper⟩ := percentile_in_range arr p hne hp0 hp1
    exact ⟨x, hx, hper⟩
  · rintro (hp | hp)
    · rw [percentile_eq]
      have := ceil_rank_le_zero arr.length p hp
      exact jsIndex_of_neg _ _ (by omega)
    · rw [percentile_eq]
      have := lt_ceil_rank arr.length p hn hp
      exact jsIndex_of_ge _ _ (by rw [length_sortAsc]; omega)

theorem percentile_unclamped_witness :
    (∃ x, x ∈ ([3, 1, 2] : List ℚ) ∧ percentile [3, 1, 2] 95 = some x) ∧
    percentile [3, 1, 2] (-5) = none :=
  ⟨(percentile_unclamped [3, 1, 2] 95 (by simp)).1 ⟨by norm_num, by norm_num⟩,
   (percentile_unclamped [3, 1, 2] (-5) (by simp)).2 (Or.inl (by norm_num))⟩

/-! ## The store is left as it was -/

theorem read_alloc_sort_old (h : Heap) (contents : List ℚ) (r : Ref)
    (hr : r < h.arrays.length) :
    ((h.alloc contents).1.sortInPlace (h.alloc contents).2).read r = h.read r := by
  have hne : h.arrays.length ≠ r := Nat.ne_of_gt hr
  simp only [Heap.read, Heap.alloc, Heap.sortInPlace, List.getD_eq_getElem?_getD,
    List.getElem?_set_ne hne, List.getElem?_append_left hr]

theorem read_alloc_sort_new (h : Heap) (contents : List ℚ) :
    ((h.alloc contents).1.sortInPlace (h.alloc contents).2).read (h.alloc contents).2 =
      sortAsc contents := by
  simp [Heap.read, Heap.alloc, Heap.sortInPlace]

/-- C9: `median` and `percentile` sort a copy: every array that exists
before the call, the argument among them, has the same elements in the same
order after it, and the value returned is the one computed from the contents
of the argument. -/
theorem median_percentile_frame (h : Heap) (arr : Ref) (p : ℚ)
    (harr : arr < h.arrays.length) :
    (medianH h arr).2.read arr = h.read arr ∧
    (percentileH h arr p).2.read arr = h.read arr ∧
    (∀ r, r < h.arrays.length →
      (medianH h arr).2.read r = h.read r ∧ (percentileH h arr p).2.read r = h.read r) ∧
    (medianH h arr).1 = median (h.read arr) ∧
    (percentileH h arr p).1 = percentile (h.read arr) p := by
  refine ⟨read_alloc_sort_old h _ arr harr, read_alloc_sort_old h _ arr harr,
    fun r hr => ⟨read_alloc_sort_old h _ r hr, read_alloc_sort_old h _ r hr⟩, ?_, ?_⟩
  · simp only [medianH, median, read_alloc_sort_new]
  · simp only [percentileH, percentile, read_alloc_sort_new]

theorem median_percentile_frame_witness :
    (medianH ⟨[[3, 1, 2]]⟩ 0).2.read 0 = [3, 1, 2] ∧
    (percentileH ⟨[[3, 1, 2]]⟩ 0 95).2.read 0 = [3, 1, 2] ∧
    (⟨[[3, 1, 2]]⟩ : Heap).sortInPlace 0 = ⟨[[1, 2, 3]]⟩ :=
  have h := median_percentile_frame ⟨[[3, 1, 2]]⟩ 0 95 (by decide)
  ⟨h.1, h.2.1, by decide⟩

/-! ## `processHARFile` -/

theorem makeRow_of_parse (parseURL : JSString → Option JSString) (index : Nat) (entry : Entry)
    (h : (parseURL entry.url).isSome = true) :
    ∃ row, makeRow parseURL index entry = some row ∧ row.num = index + 1 ∧
      row.method = entry.method ∧ row.url = entry.url ∧ row.status = entry.status := by
  obtain ⟨pathname, hp⟩ := Option.isSome_iff_exists.mp h
  obtain ⟨label, hl, _⟩ := categorize_returns pathname
  simp only [makeRow, hp, hl]
  exact ⟨_, rfl, rfl, rfl, rfl, rfl⟩

theorem mapEntries_of_parse (parseURL : JSString → Option JSString) (entries : List Entry) :
    ∀ (start : Nat), (∀ e ∈ entries, (parseURL e.url).isSome = true) →
    ∃ rows, mapEntries parseURL start entries = some rows ∧
      rows.length = entries.length ∧
      rows.map Row.num = List.range' (start + 1) entries.length ∧
      ∀ i (hi : i < entries.length), ∃ row, rows[i]? = some row ∧
        row.num = start + i + 1 ∧ row.method = (entries.get ⟨i, hi⟩).method ∧
        row.url = (entries.get ⟨i, hi⟩).url ∧ row.status = (entries.get ⟨i, hi⟩).status := by
  induction entries with
  | nil =>
    intro start _
    exact ⟨[], rfl, rfl, rfl, fun i hi => absurd hi (Nat.not_lt_zero i)⟩
  | cons e es ih =>
    intro start h
    obtain ⟨row, hrow, hnum, hm, hu, hs⟩ :=
      makeRow_of_parse parseURL start e (h e (List.mem_cons_self _ _))
    obtain ⟨rows, hrows, hlen, hnums, hget⟩ :=
      ih (start + 1) (fun x hx => h x (List.mem_cons_of_mem _ hx))
    refine ⟨row :: rows, by simp only [mapEntries, hrow, hrows], by simp [hlen], ?_, ?_⟩
    · simp only [List.map_cons, hnum, hnums, List.length_cons, List.range'_succ]
    · intro i hi
      cases i with
      | zero => exact ⟨row, by simp, hnum, hm, hu, hs⟩
      | succ j =>
        have hj : j < es.length := by simpa using hi
        obtain ⟨r, hr, hrn, hrm, hru, hrs⟩ := hget j hj
        exact ⟨r, by simpa using hr, by rw [hrn]; omega, hrm, hru, hrs⟩

/-- C10: when the URL of each of the `N` entries parses, `processHARFile`
returns `N` rows; the row at position `i` (from 0) carries the method, URL
and status of the entry at position `i` and the ordinal `i + 1`, so the
ordinals are `1, …, N` in document order. -/
theorem processHARFile_rows (parseURL : JSString → Option JSString) (log : HarLog)
    (h : ∀ e ∈ log.entries, (parseURL e.url).isSome = true) :
    ∃ rows pageTimings, processHARFile parseURL log = some (rows, pageTimings) ∧
      rows.length = log.entries.length ∧
      rows.map Row.num = List.range' 1 log.entries.length ∧
      ∀ i (hi : i < log.entries.length), ∃ row, rows[i]? = some row ∧
        row.num = i + 1 ∧ row.method = (log.entries.get ⟨i, hi⟩).method ∧
        row.url = (log.entries.get ⟨i, hi⟩).url ∧
        row.status = (log.entries.get ⟨i, hi⟩).status := by
  obtain ⟨rows, hrows, hlen, hnums, hget⟩ := mapEntries_of_parse parseURL log.entries 0 h
  refine ⟨rows, (log.pages.getD []).map pageTimingOf, by simp only [processHARFile, hrows],
    hlen, by simpa using hnums, ?_⟩
  intro i hi
  obtain ⟨r, hr, hrn, hrest⟩ := hget i hi
  exact ⟨r, hr, by omega, hrest⟩

theorem processHARFile_rows_witness :
    ∃ rows pageTimings, processHARFile sampleParseURL sampleLog = some (rows, pageTimings) ∧
      rows.length = 2 ∧ rows.map Row.num = [1, 2] :=
  have h := processHARFile_rows sampleParseURL sampleLog (by decide)
  match h with
  | ⟨rows, pts, h1, h2, h3, _⟩ => ⟨rows, pts, h1, h2, h3⟩

/-! ## Rounding to two decimals -/

theorem toFixed2_of_nonneg (x : ℚ) (h : 0 ≤ x) :
    toFixed2 x = ((⌊x * 100 + 1 / 2⌋ : ℤ) : ℚ) / 100 := by
  simp [toFixed2, not_lt.mpr h]

theorem toFixed2_of_neg (x : ℚ) (h : x < 0) :
    toFixed2 x = -((⌊(-x) * 100 + 1 / 2⌋ : ℤ) : ℚ) / 100 := by
  simp [toFixed2, h]

theorem toFixed2_nonneg (x : ℚ) (h : 0 ≤ x) : 0 ≤ toFixed2 x := by
  rw [toFixed2_of_nonneg x h]
  have hf : (0 : ℤ) ≤ ⌊x * 100 + 1 / 2⌋ := Int.floor_nonneg.mpr (by positivity)
  have hq : (0 : ℚ) ≤ ((⌊x * 100 + 1 / 2⌋ : ℤ) : ℚ) := by exact_mod_cast hf
  positivity

theorem floor_int_add_half (n : ℤ) : ⌊(n : ℚ) + 1 / 2⌋ = n := by
  rw [Int.floor_eq_iff]
  constructor <;> linarith

theorem toFixed2_hundredths (n : ℤ) : toFixed2 ((n : ℚ) / 100) = (n : ℚ) / 100 := by
  by_cases h : (n : ℚ) / 100 < 0
  · rw [toFixed2_of_neg _ h]
    have e : -((n : ℚ) / 100) * 100 + 1 / 2 = ((-n : ℤ) : ℚ) + 1 / 2 := by push_cast; ring
    rw [e, floor_int_add_half]
    push_cast
    ring
  · rw [toFixed2_of_nonneg _ (not_lt.mp h)]
    have e : (n : ℚ) / 100 * 100 + 1 / 2 = (n : ℚ) + 1 / 2 := by ring
    rw [e, floor_int_add_half]

theorem toFixed2_nearest (x : ℚ) :
    ∃ n : ℤ, toFixed2 x = (n : ℚ) / 100 ∧ |toFixed2 x - x| ≤ 1 / 200 ∧
      (|toFixed2 x - x| = 1 / 200 → |x| < |toFixed2 x|) := by
  by_cases h : x < 0
  · have hle := Int.floor_le ((-x) * 100 + 1 / 2)
    have hlt := Int.lt_floor_add_one ((-x) * 100 + 1 / 2)
    rw [toFixed2_of_neg x h]
    set m : ℤ := ⌊(-x) * 100 + 1 / 2⌋ with hm
    refine ⟨-m, by push_cast; ring, ?_, ?_⟩
    · rw [abs_le]
      constructor <;> linarith
    · intro heq
      have hd : -(m : ℚ) / 100 - x = -(1 / 200) := by
        rcases abs_eq (by norm_num : (0 : ℚ) ≤ 1 / 200) |>.mp heq with h1 | h1
        · linarith
        · exact h1
      have hneg : -(m : ℚ) / 100 < 0 := by linarith
      rw [abs_of_neg h, abs_of_neg hneg]
      linarith
  · have h0 : 0 ≤ x := not_lt.mp h
    have hle := Int.floor_le (x * 100 + 1 / 2)
    have hlt := Int.lt_floor_add_one (x * 100 + 1 / 2)
    rw [toFixed2_of_nonneg x h0]
    set m : ℤ := ⌊x * 100 + 1 / 2⌋ with hm
    refine ⟨m, rfl, ?_, ?_⟩
    · rw [abs_le]
      constructor <;> linarith
    · intro heq
      have hd : (m : ℚ) / 100 - x = 1 / 200 := by
        rcases abs_eq (by norm_num : (0 : ℚ) ≤ 1 / 200) |>.mp heq with h1 | h1
        · exact h1
        · linarith
      have hpos : 0 < (m : ℚ) / 100 := by linarith
      rw [abs_of_nonneg h0, abs_of_pos hpos]
      linarith

theorem val_nonneg (v : Option JSNum) : 0 ≤ val v := by
  unfold val
  split
  · split_ifs with h
    · exact toFixed2_nonneg _ h.2
    · exact le_refl 0
  · exact le_refl 0

theorem val_of_nonneg (q : ℚ) (h : 0 ≤ q) : val (some (JSNum.num q)) = toFixed2 q := by
  by_cases h0 : q = 0
  · subst h0
    have := toFixed2_hundredths 0
    simp only [Int.cast_zero, zero_div] at this
    simp [val, this]
  · simp [val, h0, h]

theorem val_of_neg (q : ℚ) (h : q < 0) : val (some (JSNum.num q)) = 0 := by
  simp [val, not_le.mpr h]

/-! ## Rows and their source entries -/

theorem makeRow_fields (parseURL : JSString → Option JSString) (index : Nat) (entry : Entry)
    (row : Row) (h : makeRow parseURL index entry = some row) :
    row.num = index + 1 ∧ row.time = toFixed2 entry.time ∧ row.size = sizeKB entry.size ∧
    row.timingValues =
      (entry.timings.getD ⟨none, none, none, none, none, none, none⟩).fields.map val := by
  unfold makeRow at h
  cases hp : parseURL entry.url with
  | none => simp [hp] at h
  | some pathname =>
    cases hc : categorize pathname with
    | none => simp [hp, hc] at h
    | some category =>
      simp only [hp, hc, Option.some.injEq] at h
      subst h
      exact ⟨rfl, rfl, rfl, rfl⟩

theorem makeRow_of_unparsed (parseURL : JSString → Option JSString) (index : Nat)
    (entry : Entry) (h : parseURL entry.url = none) : makeRow parseURL index entry = none := by
  simp [makeRow, h]

theorem mapEntries_of_unparsed (parseURL : JSString → Option JSString) (entries : List Entry) :
    ∀ (start : Nat), (∃ e ∈ entries, parseURL e.url = none) →
      mapEntries parseURL start entries = none := by
  induction entries with
  | nil => intro start h; obtain ⟨e, he, _⟩ := h; cases he
  | cons e es ih =>
    intro start h
    cases hm : makeRow parseURL start e with
    | none => simp [mapEntries, hm]
    | some row =>
      obtain ⟨x, hx, hxu⟩ := h
      rcases List.mem_cons.mp hx with rfl | hx2
      · rw [makeRow_of_unparsed parseURL start x hxu] at hm
        cases hm
      · simp [mapEntries, hm, ih (start + 1) ⟨x, hx2, hxu⟩]

theorem mapEntries_columns (parseURL : JSString → Option JSString) (entries : List Entry) :
    ∀ (start : Nat) (rows : List Row), mapEntries parseURL start entries = some rows →
      rows.map Row.time = entries.map (fun e => toFixed2 e.time) ∧
      rows.map Row.size = entries.map (fun e => sizeKB e.size) ∧
      rows.map Row.timingValues = entries.map (fun e =>
        (e.timings.getD ⟨none, none, none, none, none, none, none⟩).fields.map val) := by
  induction entries with
  | nil =>
    intro start rows h
    simp only [mapEntries, Option.some.injEq] at h
    subst h
    exact ⟨rfl, rfl, rfl⟩
  | cons e es ih =>
    intro start rows h
    unfold mapEntries at h
    cases hm : makeRow parseURL start e with
    | none => simp [hm] at h
    | some row =>
      cases hr : mapEntries parseURL (start + 1) es with
      | none => simp [hm, hr] at h
      | some rest =>
        simp only [hm, hr, Option.some.injEq] at h
        subst h
        obtain ⟨_, ht, hs, hv⟩ := makeRow_fields parseURL start e row hm
        obtain ⟨it, is, iv⟩ := ih (start + 1) rest hr
        simp only [List.map_cons, ht, hs, hv, it, is, iv, and_self]

theorem processHARFile_rows_eq (parseURL : JSString → Option JSString) (log : HarLog)
    (rows : List Row) (pts : List PageTiming)
    (h : processHARFile parseURL log = some (rows, pts)) :
    mapEntries parseURL 0 log.entries = some rows ∧
    pts = (log.pages.getD []).map pageTimingOf := by
  unfold processHARFile at h
  cases hm : mapEntries parseURL 0 log.entries with
  | none => simp [hm] at h
  | some r =>
    simp only [hm, Option.some.injEq, Prod.mk.injEq] at h
    exact ⟨by rw [h.1], h.2.symm⟩

theorem medianDouble_of_ne_nil (arr : List ℚ) (hne : arr ≠ []) :
    ∃ m, medianDouble arr = some m := by
  have hn : 0 < arr.length := List.length_pos.mpr hne
  have hlen := length_sortAsc arr
  have hlt : arr.length / 2 < (sortAsc arr).length := by omega
  by_cases hodd : arr.length % 2 ≠ 0
  · refine ⟨(sortAsc arr)[arr.length / 2], ?_⟩
    simp only [medianDouble, medianOfSortedDouble, hlen, if_pos hodd, jsIndex_natCast]
    exact List.getElem?_eq_getElem hlt
  · have hlt2 : arr.length / 2 - 1 < (sortAsc arr).length := by omega
    have hcast : ((arr.length / 2 : Nat) : Int) - 1 = ((arr.length / 2 - 1 : Nat) : Int) := by
      omega
    refine ⟨toDouble (toDouble ((sortAsc arr)[arr.length / 2 - 1] +
      (sortAsc arr)[arr.length / 2]) / 2), ?_⟩
    simp only [medianDouble, medianOfSortedDouble, hlen, if_neg hodd, hcast, jsIndex_natCast,
      List.getElem?_eq_getElem hlt, List.getElem?_eq_getElem hlt2]

theorem percentileDouble95_of_ne_nil (arr : List ℚ) (hne : arr ≠ []) :
    ∃ x, x ∈ arr ∧ percentileDouble arr 95 = some x := by
  have hn : 0 < arr.length := List.length_pos.mpr hne
  have hb := rank95_bounds arr.length hn
  have hk : (⌈toDouble (toDouble (95 / 100) * (arr.length : ℚ))⌉ - 1).toNat <
      (sortAsc arr).length := by
    rw [length_sortAsc]; omega
  obtain ⟨x, hx, _, hidx⟩ := jsIndex_of_lt (sortAsc arr) _
    (⌈toDouble (toDouble (95 / 100) * (arr.length : ℚ))⌉ - 1) (Int.toNat_of_nonneg (by omega)) hk
  exact ⟨x, (perm_sortAsc arr).mem_iff.mp hx, by rw [percentileDouble_eq, hidx]⟩

theorem addSheet_cons (r : Row) (rs : List Row) (pts : List PageTiming) :
    ∃ med p95 p95w, medianDouble (((r :: rs).map Row.time).map toDouble) = some med ∧
      percentileDouble (((r :: rs).map Row.time).map toDouble) 95 = some p95 ∧
      percentileDouble (((r :: rs).map Row.wait).map toDouble) 95 = some p95w ∧
      addSheet (r :: rs) pts = AddSheetResult.added
        { totalRequests := (r :: rs).length
          avgTime := toFixed2 (toDouble ((((r :: rs).map Row.time).map toDouble).foldl
            (fun a b => toDouble (a + b)) 0 / (((r :: rs).length : Nat) : ℚ)))
          minTime := toFixed2 ((((r :: rs).map Row.time).map toDouble).foldl min
            (toDouble r.time))
          maxTime := toFixed2 ((((r :: rs).map Row.time).map toDouble).foldl max
            (toDouble r.time))
          medianTime := toFixed2 med
          p95Time := toFixed2 p95
          avgSize := ((((r :: rs).map Row.size).map JSNum.toDouble).foldl JSNum.add
            (JSNum.num 0)).divFixed (r :: rs).length
          totalSize := ((((r :: rs).map Row.size).map JSNum.toDouble).foldl JSNum.add
            (JSNum.num 0)).fixed
          avgTTFB := toFixed2 (toDouble ((((r :: rs).map Row.wait).map toDouble).foldl
            (fun a b => toDouble (a + b)) 0 / (((r :: rs).length : Nat) : ℚ)))
          p95TTFB := toFixed2 p95w }
        (pts.map pageRowOf) := by
  obtain ⟨med, hmed⟩ := medianDouble_of_ne_nil (((r :: rs).map Row.time).map toDouble)
    (by simp)
  obtain ⟨p95, _, hp95⟩ := percentileDouble95_of_ne_nil
    (((r :: rs).map Row.time).map toDouble) (by simp)
  obtain ⟨p95w, _, hp95w⟩ := percentileDouble95_of_ne_nil
    (((r :: rs).map Row.wait).map toDouble) (by simp)
  refine ⟨med, p95, p95w, hmed, hp95, hp95w, ?_⟩
  simp only [addSheet, hmed, hp95, hp95w]

theorem foldl_min_least (l : List ℚ) :
    ∀ init : ℚ, (l.foldl min init = init ∨ l.foldl min init ∈ l) ∧
      l.foldl min init ≤ init ∧ ∀ t ∈ l, l.foldl min init ≤ t := by
  induction l with
  | nil => intro init; simp
  | cons a t ih =>
    intro init
    obtain ⟨h1, h2, h3⟩ := ih (min init a)
    simp only [List.foldl_cons, List.mem_cons]
    refine ⟨?_, le_trans h2 (min_le_left _ _), ?_⟩
    · rcases h1 with h | h
      · rcases min_choice init a with hc | hc
        · left; rw [h, hc]
        · right; left; rw [h, hc]
      · right; right; exact h
    · intro x hx
      rcases hx with rfl | hx
      · exact le_trans h2 (min_le_right _ _)
      · exact h3 x hx

theorem foldl_max_greatest (l : List ℚ) :
    ∀ init : ℚ, (l.foldl max init = init ∨ l.foldl max init ∈ l) ∧
      init ≤ l.foldl max init ∧ ∀ t ∈ l, t ≤ l.foldl max init := by
  induction l with
  | nil => intro init; simp
  | cons a t ih =>
    intro init
    obtain ⟨h1, h2, h3⟩ := ih (max init a)
    simp only [List.foldl_cons, List.mem_cons]
    refine ⟨?_, le_trans (le_max_left _ _) h2, ?_⟩
    · rcases h1 with h | h
      · rcases max_choice init a with hc | hc
        · left; rw [h, hc]
        · right; left; rw [h, hc]
      · right; right; exact h
    · intro x hx
      rcases hx with rfl | hx
      · exact le_trans (le_max_right _ _) h2
      · exact h3 x hx

/-! ## Claims on the rows and on `addSheet` -/

/-- C11: in a row, each of the seven timing values is `0` when the timings
object or the field is absent, when the field is negative and when it is
`NaN`, and the field rounded to two decimals otherwise; every timing value
of a row is a number that is at least `0`. -/
theorem timings_normalized (parseURL : JSString → Option JSString) (index : Nat)
    (entry : Entry) (row : Row) (h : makeRow parseURL index entry = some row) :
    (entry.timings = none → row.timingValues = [0, 0, 0, 0, 0, 0, 0]) ∧
    (∀ t, entry.timings = some t → row.timingValues = t.fields.map val) ∧
    (∀ x ∈ row.timingValues, 0 ≤ x) ∧
    val none = 0 ∧ val (some JSNum.nan) = 0 ∧
    (∀ q : ℚ, q < 0 → val (some (JSNum.num q)) = 0) ∧
    (∀ q : ℚ, 0 ≤ q → val (some (JSNum.num q)) = toFixed2 q) := by
  obtain ⟨_, _, _, hv⟩ := makeRow_fields parseURL index entry row h
  refine ⟨?_, ?_, ?_, rfl, rfl, val_of_neg, val_of_nonneg⟩
  · intro hn
    rw [hv, hn]
    rfl
  · intro t ht
    rw [hv, ht]
    rfl
  · intro x hx
    rw [hv] at hx
    obtain ⟨v, _, rfl⟩ := List.mem_map.mp hx
    exact val_nonneg v

theorem timings_normalized_witness :
    ∃ row, makeRow sampleParseURL 0 timedEntry = some row ∧
      (∀ x ∈ row.timingValues, 0 ≤ x) ∧
      row.timingValues = [0, 0, 0, toFixed2 (5 / 4), 0, toFixed2 3, 0] :=
  match makeRow_of_parse sampleParseURL 0 timedEntry (by decide) with
  | ⟨row, hrow, _⟩ =>
    ⟨row, hrow, (timings_normalized sampleParseURL 0 timedEntry row hrow).2.2.1,
      ((timings_normalized sampleParseURL 0 timedEntry row hrow).2.1 _ rfl).trans
        (by
          have h1 : val (some (JSNum.num (-1))) = 0 := val_of_neg _ (by norm_num)
          have h2 : val (some (JSNum.num (5 / 4))) = toFixed2 (5 / 4) :=
            val_of_nonneg _ (by norm_num)
          have h3 : val (some (JSNum.num 0)) = 0 := by simp [val]
          have h4 : val (some (JSNum.num 3)) = toFixed2 3 := val_of_nonneg _ (by norm_num)
          have h5 : val none = 0 := rfl
          have h6 : val (some JSNum.nan) = 0 := rfl
          simp only [Timings.fields, List.map, h1, h2, h3, h4, h5, h6])⟩

/-- C12, the code at the failing inputs: an absent `response.content.size`
gives the size `NaN` and the size `-2048` gives `-2`, not the sentinel `0`;
on the sample capture, whose second entry has no size, the sizes of the rows
are `2` and `NaN`, and the total and the average size of `addSheet` are
`NaN`. -/
theorem size_not_normalized :
    sizeKB none = JSNum.nan ∧ sizeKB (some (-2048)) = JSNum.num (-2) ∧
    ∃ rows pts stats pageRows,
      processHARFile sampleParseURL sampleLog = some (rows, pts) ∧
      rows.map Row.size = [JSNum.num 2, JSNum.nan] ∧
      addSheet rows pts = AddSheetResult.added stats pageRows ∧
      stats.totalSize = JSNum.nan ∧ stats.avgSize = JSNum.nan := by
  have h2 : toFixed2 (2048 / 1024) = 2 := by
    have := toFixed2_hundredths 200
    norm_num at this ⊢
    exact this
  have hm2 : toFixed2 (-2048 / 1024) = -2 := by
    have := toFixed2_hundredths (-200)
    norm_num at this ⊢
    exact this
  refine ⟨rfl, by simp [sizeKB, hm2], ?_⟩
  obtain ⟨rows, hrows, _, _, _⟩ := mapEntries_of_parse sampleParseURL sampleLog.entries 0
    (by decide)
  have hsize := (mapEntries_columns sampleParseURL sampleLog.entries 0 rows hrows).2.1
  have hsz : rows.map Row.size = [JSNum.num 2, JSNum.nan] := by
    rw [hsize]
    simp [sampleLog, sizeKB, h2]
  match rows, hrows, hsz with
  | [], _, hsz => simp at hsz
  | r :: rs, hrows, hsz =>
    obtain ⟨med, p95, p95w, _, _, _, hadd⟩ := addSheet_cons r rs ([].map pageTimingOf)
    refine ⟨r :: rs, [].map pageTimingOf, _, _, ?_, hsz, hadd, ?_, ?_⟩
    · simp only [processHARFile, hrows]
      rfl
    · simp only [hsz]
      rfl
    · simp only [hsz]
      rfl

theorem toFixed2_eq (x : ℚ) (n : ℤ) (hx : 0 ≤ x) (h1 : (n : ℚ) ≤ x * 100 + 1 / 2)
    (h2 : x * 100 + 1 / 2 < (n : ℚ) + 1) : toFixed2 x = (n : ℚ) / 100 := by
  have h : ⌊x * 100 + 1 / 2⌋ = n := Int.floor_eq_iff.mpr ⟨h1, h2⟩
  rw [toFixed2_of_nonneg x hx, h]

theorem toDouble_written_tie : toDouble (201 / 200) = 4526117625507348 * 2 ^ (-52 : ℤ) := by
  have h := toDouble_eval (201 / 200) 0 4526117625507348 (by norm_num) (by norm_num)
    (by norm_num) (by norm_num) (by norm_num) (by norm_num)
  simpa using h

theorem toDouble_cent : toDouble (1 / 100) = 5764607523034235 * 2 ^ (-59 : ℤ) := by
  have h := toDouble_eval (1 / 100) (-7) 5764607523034235 (by norm_num) (by norm_num)
    (by norm_num) (by norm_num) (by norm_num) (by norm_num)
  simpa using h

theorem toDouble_two_cents : toDouble (2 / 100) = 5764607523034235 * 2 ^ (-58 : ℤ) := by
  have h := toDouble_eval (2 / 100) (-6) 5764607523034235 (by norm_num) (by norm_num)
    (by norm_num) (by norm_num) (by norm_num) (by norm_num)
  simpa using h

theorem toDouble_zero_add_cent :
    toDouble (0 + 5764607523034235 * 2 ^ (-59 : ℤ)) = 5764607523034235 * 2 ^ (-59 : ℤ) := by
  have h := toDouble_eval (0 + 5764607523034235 * 2 ^ (-59 : ℤ)) (-7) 5764607523034235
    (by norm_num) (by norm_num) (by norm_num) (by norm_num) (by norm_num) (by norm_num)
  simpa using h

theorem roundHalfEven_tie (m : ℤ) (hm : m % 2 = 0) :
    roundHalfEven ((m : ℚ) + 1 / 2) = m := by
  have hf : ⌊(m : ℚ) + 1 / 2⌋ = m := floor_int_add_half m
  have hfr : (m : ℚ) + 1 / 2 - (m : ℚ) = 1 / 2 := by ring
  unfold roundHalfEven
  rw [hf, hfr, if_neg (lt_irrefl _), if_neg (lt_irrefl _), if_pos hm]

theorem toDouble_eval_tie (x : ℚ) (e m : ℤ) (hx : 0 < x) (he : -1022 ≤ e)
    (h1 : (2 : ℚ) ^ e ≤ x) (h2 : x < (2 : ℚ) ^ (e + 1))
    (hm : x / 2 ^ (e - 52) = (m : ℚ) + 1 / 2) (heven : m % 2 = 0) :
    toDouble x = (m : ℚ) * 2 ^ (e - 52) := by
  unfold toDouble
  rw [binade_eq x e hx he h1 h2, hm, roundHalfEven_tie m heven]

theorem toDouble_three_cents :
    toDouble (5764607523034235 * 2 ^ (-59 : ℤ) + 5764607523034235 * 2 ^ (-58 : ℤ)) =
      8646911284551352 * 2 ^ (-58 : ℤ) := by
  have h := toDouble_eval_tie
    (5764607523034235 * 2 ^ (-59 : ℤ) + 5764607523034235 * 2 ^ (-58 : ℤ)) (-6)
    8646911284551352 (by norm_num) (by norm_num) (by norm_num) (by norm_num) (by norm_num)
    (by norm_num)
  simpa using h

theorem toDouble_half_three_cents :
    toDouble (8646911284551352 * 2 ^ (-58 : ℤ) / 2) = 8646911284551352 * 2 ^ (-59 : ℤ) := by
  have h := toDouble_eval (8646911284551352 * 2 ^ (-58 : ℤ) / 2) (-7) 8646911284551352
    (by norm_num) (by norm_num) (by norm_num) (by norm_num) (by norm_num) (by norm_num)
  simpa using h

/-- C13, as stated, fails: a time written `1.005` in the capture is read as
the double nearest to `201/200`, which lies below it, and the row holds
`1.00`; the source value `1.005` rounded to two decimals with ties away from
zero is `1.01`. -/
theorem decimal_tie_counterexample :
    (∃ row, makeRow sampleParseURL 0 tieEntry = some row ∧ row.time = 1) ∧
    toFixed2 (201 / 200) = 101 / 100 ∧ tieEntry.time < 201 / 200 := by
  have hd : tieEntry.time = 4526117625507348 * 2 ^ (-52 : ℤ) := toDouble_written_tie
  refine ⟨?_, ?_, ?_⟩
  · obtain ⟨row, hrow, _⟩ := makeRow_of_parse sampleParseURL 0 tieEntry (by decide)
    obtain ⟨_, ht, _, _⟩ := makeRow_fields sampleParseURL 0 tieEntry row hrow
    refine ⟨row, hrow, ?_⟩
    rw [ht, hd]
    have h := toFixed2_eq (4526117625507348 * 2 ^ (-52 : ℤ)) 100 (by norm_num) (by norm_num)
      (by norm_num)
    rw [h]
    norm_num
  · have h := toFixed2_eq (201 / 200) 101 (by norm_num) (by norm_num) (by norm_num)
    rw [h]
    norm_num
  · rw [hd]
    norm_num

/-- C13, amended: `toFixed2` takes a double to the multiple of `1/100` nearest
to its exact value, a tie of that value going away from zero; the response
time, the size in KB and each non-negative timing of a row are the numbers of
the entry so rounded, in `processHARFile`; and `addSheet` computes the mean,
median, minimum, maximum and 95th percentile in double arithmetic over the
times of the rows, which are the rounded times of the entries read back as
doubles, each result being printed with two decimals. -/
theorem rounding_of_doubles :
    (∀ x : ℚ, ∃ n : ℤ, toFixed2 x = (n : ℚ) / 100 ∧ |toFixed2 x - x| ≤ 1 / 200 ∧
      (|toFixed2 x - x| = 1 / 200 → |x| < |toFixed2 x|)) ∧
    (∀ (parseURL : JSString → Option JSString) (index : Nat) (entry : Entry) (row : Row),
      makeRow parseURL index entry = some row →
        row.time = toFixed2 entry.time ∧
        (∀ b, entry.size = some b → row.size = JSNum.num (toFixed2 (b / 1024))) ∧
        (∀ (t : Timings) (i : Nat) (q : ℚ), entry.timings = some t →
          t.fields[i]? = some (some (JSNum.num q)) →
          0 ≤ q → row.timingValues[i]? = some (toFixed2 q))) ∧
    (∀ (parseURL : JSString → Option JSString) (log : HarLog) (rows : List Row)
      (pts : List PageTiming), processHARFile parseURL log = some (rows, pts) → rows ≠ [] →
        rows.map Row.time = log.entries.map (fun e => toFixed2 e.time) ∧
        ∃ stats pageRows med p95 mn mx,
          addSheet rows pts = AddSheetResult.added stats pageRows ∧
          stats.avgTime = toFixed2 (toDouble (((rows.map Row.time).map toDouble).foldl
            (fun a b => toDouble (a + b)) 0 / ((rows.length : Nat) : ℚ))) ∧
          medianDouble ((rows.map Row.time).map toDouble) = some med ∧
          stats.medianTime = toFixed2 med ∧
          percentileDouble ((rows.map Row.time).map toDouble) 95 = some p95 ∧
          stats.p95Time = toFixed2 p95 ∧
          mn ∈ (rows.map Row.time).map toDouble ∧
          (∀ t ∈ (rows.map Row.time).map toDouble, mn ≤ t) ∧
          stats.minTime = toFixed2 mn ∧
          mx ∈ (rows.map Row.time).map toDouble ∧
          (∀ t ∈ (rows.map Row.time).map toDouble, t ≤ mx) ∧
          stats.maxTime = toFixed2 mx) := by
  refine ⟨toFixed2_nearest, ?_, ?_⟩
  · intro parseURL index entry row h
    obtain ⟨_, ht, hs, hv⟩ := makeRow_fields parseURL index entry row h
    refine ⟨ht, ?_, ?_⟩
    · intro b hb
      rw [hs, hb]
      rfl
    · intro t i q htm hf hq
      rw [hv, htm]
      simp only [Option.getD_some, List.getElem?_map, hf, Option.map_some',
        val_of_nonneg q hq]
  · intro parseURL log rows pts h hne
    obtain ⟨hmap, _⟩ := processHARFile_rows_eq parseURL log rows pts h
    refine ⟨(mapEntries_columns parseURL log.entries 0 rows hmap).1, ?_⟩
    match rows, hne with
    | r :: rs, _ =>
      obtain ⟨med, p95, p95w, hmed, hp95, _, hadd⟩ := addSheet_cons r rs pts
      obtain ⟨hmin1, _, hmin3⟩ :=
        foldl_min_least (((r :: rs).map Row.time).map toDouble) (toDouble r.time)
      obtain ⟨hmax1, _, hmax3⟩ :=
        foldl_max_greatest (((r :: rs).map Row.time).map toDouble) (toDouble r.time)
      have hmem : toDouble r.time ∈ ((r :: rs).map Row.time).map toDouble := by simp
      refine ⟨_, _, med, p95, (((r :: rs).map Row.time).map toDouble).foldl min (toDouble r.time),
        (((r :: rs).map Row.time).map toDouble).foldl max (toDouble r.time), hadd, rfl, hmed,
        rfl, hp95, rfl, ?_, hmin3, rfl, ?_, hmax3, rfl⟩
      · rcases hmin1 with h1 | h1
        · rw [h1]; exact hmem
        · exact h1
      · rcases hmax1 with h1 | h1
        · rw [h1]; exact hmem
        · exact h1

theorem rounding_of_doubles_witness :
    ∃ rows pts stats pageRows, processHARFile sampleParseURL centLog = some (rows, pts) ∧
      rows.map Row.time = [1 / 100, 2 / 100] ∧
      addSheet rows pts = AddSheetResult.added stats pageRows ∧
      stats.avgTime = 1 / 100 := by
  obtain ⟨rows, hrows, hlen, _, _⟩ := mapEntries_of_parse sampleParseURL centLog.entries 0
    (by decide)
  have hp : processHARFile sampleParseURL centLog = some (rows, [].map pageTimingOf) := by
    simp only [processHARFile, hrows]
    rfl
  have hne : rows ≠ [] := by
    intro h0
    rw [h0] at hlen
    exact absurd hlen (by decide)
  obtain ⟨htimes, stats, pageRows, _, _, _, _, hadd, havg, _⟩ :=
    rounding_of_doubles.2.2 sampleParseURL centLog rows _ hp hne
  have h1 : toFixed2 (1 / 128) = 1 / 100 := by
    have h := toFixed2_eq (1 / 128) 1 (by norm_num) (by norm_num) (by norm_num)
    rw [h]
    norm_num
  have h2 : toFixed2 (1 / 64) = 2 / 100 := by
    have h := toFixed2_eq (1 / 64) 2 (by norm_num) (by norm_num) (by norm_num)
    rw [h]
    norm_num
  have h3 : toFixed2 (8646911284551352 * 2 ^ (-59 : ℤ)) = 1 / 100 := by
    have h := toFixed2_eq (8646911284551352 * 2 ^ (-59 : ℤ)) 1 (by norm_num) (by norm_num)
      (by norm_num)
    rw [h]
    norm_num
  have ht : rows.map Row.time = [1 / 100, 2 / 100] := by
    rw [htimes]
    simp only [centLog, List.map, h1, h2]
  have hl : rows.length = 2 := by
    have := congrArg List.length ht
    simpa using this
  refine ⟨rows, _, stats, pageRows, hp, ht, hadd, ?_⟩
  rw [havg, ht, hl]
  simp only [List.map, List.foldl, Nat.cast_ofNat]
  rw [toDouble_cent, toDouble_two_cents, toDouble_zero_add_cent, toDouble_three_cents,
    toDouble_half_three_cents, h3]

/-- C14, as stated, fails: in a capture of three entries whose second URL
does not parse, while the first and the third do, `processHARFile` returns no
rows at all: the exception ends the call. -/
theorem unparseable_url_counterexample :
    brokenLog.entries.map (fun e => (sampleParseURL e.url).isSome) = [true, false, true] ∧
    processHARFile sampleParseURL brokenLog = none := by
  refine ⟨by decide, ?_⟩
  have h : mapEntries sampleParseURL 0 brokenLog.entries = none :=
    mapEntries_of_unparsed sampleParseURL brokenLog.entries 0
      ⟨_, List.mem_cons_of_mem _ (List.mem_cons_self _ _), by decide⟩
  simp only [processHARFile, h]

/-- C14, amended: when the URL of an entry does not parse, the exception of
`new URL` leaves `entries.map` and `processHARFile` fails for the file; no
row is returned, not even for the entries that are valid. -/
theorem processHARFile_fails_on_unparseable (parseURL : JSString → Option JSString)
    (log : HarLog) (h : ∃ e ∈ log.entries, parseURL e.url = none) :
    processHARFile parseURL log = none := by
  simp only [processHARFile, mapEntries_of_unparsed parseURL log.entries 0 h]

theorem processHARFile_fails_on_unparseable_witness :
    processHARFile sampleParseURL
      { entries := [{ method := "GET".toList, url := "not a url".toList, status := 0,
                      size := none, time := 0, timings := none }],
        pages := none } = none :=
  processHARFile_fails_on_unparseable sampleParseURL _
    ⟨_, List.mem_cons_self _ _, by decide⟩

/-- C15: on a capture with no entry `processHARFile` returns the empty list
of rows, and `addSheet` returns at once, with no worksheet and no statistic;
this outcome is the one of the empty list of rows and of no other. -/
theorem empty_capture_skipped (parseURL : JSString → Option JSString)
    (pages : Option (List Page)) (pts : List PageTiming) :
    processHARFile parseURL ⟨[], pages⟩ = some ([], (pages.getD []).map pageTimingOf) ∧
    addSheet [] pts = AddSheetResult.skipped ∧
    (∀ rows, addSheet rows pts = AddSheetResult.skipped ↔ rows = []) ∧
    (∀ rows, rows ≠ [] → ∃ stats pageRows,
      addSheet rows pts = AddSheetResult.added stats pageRows) := by
  refine ⟨rfl, rfl, ?_, ?_⟩
  · intro rows
    constructor
    · intro h
      match rows, h with
      | [], _ => rfl
      | r :: rs, h =>
        obtain ⟨_, _, _, _, _, _, hadd⟩ := addSheet_cons r rs pts
        rw [hadd] at h
        cases h
    · intro h
      rw [h]
      rfl
  · intro rows hne
    match rows, hne with
    | r :: rs, _ =>
      obtain ⟨_, _, _, _, _, _, hadd⟩ := addSheet_cons r rs pts
      exact ⟨_, _, hadd⟩

theorem empty_capture_skipped_witness :
    processHARFile sampleParseURL ⟨[], none⟩ = some ([], []) ∧
    addSheet [] [] = AddSheetResult.skipped :=
  ⟨(empty_capture_skipped sampleParseURL none []).1,
   (empty_capture_skipped sampleParseURL none []).2.1⟩

theorem pageTimingCell_of_neg (q : ℚ) (hq : q < 0) :
    pageTimingCell q = TimingCell.notAvailable := by
  simp [pageTimingCell, not_le.mpr hq]

theorem pageTimingCell_of_nonneg (q : ℚ) (hq : 0 ≤ q) :
    pageTimingCell q = TimingCell.fixed (toFixed2 q) := by
  simp [pageTimingCell, hq]

theorem toFixed2_zero : toFixed2 0 = 0 := by
  have := toFixed2_hundredths 0
  simpa using this

/-- C16: `addSheet` writes no sheet for a capture without entry and, for
every other capture, one page-timing row for each page of the capture, in
order; in the row of a page a content-loaded or full-load timing that is
absent (with or without the `pageTimings` object) or negative is shown as
`N/A`, and a timing that is at least `0`, `0` included, is shown as its value
to two decimals. -/
theorem page_timing_rows (parseURL : JSString → Option JSString) (log : HarLog)
    (rows : List Row) (pts : List PageTiming)
    (h : processHARFile parseURL log = some (rows, pts)) :
    (rows = [] → addSheet rows pts = AddSheetResult.skipped) ∧
    (rows ≠ [] →
      ∃ stats pageRows, addSheet rows pts = AddSheetResult.added stats pageRows ∧
        pageRows.length = (log.pages.getD []).length ∧
        ∀ (i : Nat) (page : Page), (log.pages.getD [])[i]? = some page →
          ∃ pageRow, pageRows[i]? = some pageRow ∧
            ((page.pageTimings.bind fun t => t.onContentLoad) = none →
              pageRow.onContentLoad = TimingCell.notAvailable) ∧
            (∀ q, (page.pageTimings.bind fun t => t.onContentLoad) = some q → q < 0 →
              pageRow.onContentLoad = TimingCell.notAvailable) ∧
            (∀ q, (page.pageTimings.bind fun t => t.onContentLoad) = some q → 0 ≤ q →
              pageRow.onContentLoad = TimingCell.fixed (toFixed2 q)) ∧
            ((page.pageTimings.bind fun t => t.onContentLoad) = some 0 →
              pageRow.onContentLoad = TimingCell.fixed 0) ∧
            ((page.pageTimings.bind fun t => t.onLoad) = none →
              pageRow.onLoad = TimingCell.notAvailable) ∧
            (∀ q, (page.pageTimings.bind fun t => t.onLoad) = some q → q < 0 →
              pageRow.onLoad = TimingCell.notAvailable) ∧
            (∀ q, (page.pageTimings.bind fun t => t.onLoad) = some q → 0 ≤ q →
              pageRow.onLoad = TimingCell.fixed (toFixed2 q)) ∧
            ((page.pageTimings.bind fun t => t.onLoad) = some 0 →
              pageRow.onLoad = TimingCell.fixed 0)) := by
  obtain ⟨_, hpts⟩ := processHARFile_rows_eq parseURL log rows pts h
  have hna : pageTimingCell (-1) = TimingCell.notAvailable :=
    pageTimingCell_of_neg (-1) (by norm_num)
  have hzero : pageTimingCell 0 = TimingCell.fixed 0 := by
    rw [pageTimingCell_of_nonneg 0 (le_refl 0), toFixed2_zero]
  refine ⟨fun h0 => by rw [h0]; rfl, ?_⟩
  intro hne
  match rows, hne with
  | r :: rs, _ =>
    obtain ⟨_, _, _, _, _, _, hadd⟩ := addSheet_cons r rs pts
    refine ⟨_, _, hadd, by rw [hpts]; simp, ?_⟩
    intro i page hpage
    refine ⟨pageRowOf (pageTimingOf page), by rw [hpts]; simp [hpage], ?_, ?_, ?_, ?_, ?_, ?_,
      ?_, ?_⟩
    · intro hc
      simp only [pageRowOf, pageTimingOf, hc, Option.getD_none, hna]
    · intro q hc hq
      simp only [pageRowOf, pageTimingOf, hc, Option.getD_some, pageTimingCell_of_neg q hq]
    · intro q hc hq
      simp only [pageRowOf, pageTimingOf, hc, Option.getD_some, pageTimingCell_of_nonneg q hq]
    · intro hc
      simp only [pageRowOf, pageTimingOf, hc, Option.getD_some, hzero]
    · intro hc
      simp only [pageRowOf, pageTimingOf, hc, Option.getD_none, hna]
    · intro q hc hq
      simp only [pageRowOf, pageTimingOf, hc, Option.getD_some, pageTimingCell_of_neg q hq]
    · intro q hc hq
      simp only [pageRowOf, pageTimingOf, hc, Option.getD_some, pageTimingCell_of_nonneg q hq]
    · intro hc
      simp only [pageRowOf, pageTimingOf, hc, Option.getD_some, hzero]

theorem page_timing_rows_witness :
    ∃ rows pts stats pageRows home unknown cart,
      processHARFile sampleParseURL pagedLog = some (rows, pts) ∧
      addSheet rows pts = AddSheetResult.added stats pageRows ∧
      pageRows.length = 3 ∧
      pageRows[0]? = some home ∧ home.onContentLoad = TimingCell.fixed 0 ∧
      home.onLoad = TimingCell.notAvailable ∧
      pageRows[1]? = some unknown ∧ unknown.onContentLoad = TimingCell.notAvailable ∧
      unknown.onLoad = TimingCell.notAvailable ∧
      pageRows[2]? = some cart ∧ cart.onContentLoad = TimingCell.notAvailable ∧
      cart.onLoad = TimingCell.fixed (toFixed2 (25 / 2)) := by
  obtain ⟨rows, hrows, hlen, _, _⟩ := mapEntries_of_parse sampleParseURL pagedLog.entries 0
    (by decide)
  have hp : processHARFile sampleParseURL pagedLog =
      some (rows, (pagedLog.pages.getD []).map pageTimingOf) := by
    simp only [processHARFile, hrows]
  have hne : rows ≠ [] := by
    intro h0
    rw [h0] at hlen
    exact absurd hlen (by decide)
  obtain ⟨stats, pageRows, hadd, hcount, hcells⟩ :=
    (page_timing_rows sampleParseURL pagedLog rows _ hp).2 hne
  obtain ⟨home, hhome, _, _, _, hc0, hl0, _⟩ := hcells 0 _ rfl
  obtain ⟨unknown, hunknown, hc1, _, _, _, hl1, _⟩ := hcells 1 _ rfl
  obtain ⟨cart, hcart, _, hc2, _, _, _, _, hl2, _⟩ := hcells 2 _ rfl
  exact ⟨rows, _, stats, pageRows, home, unknown, cart, hp, hadd, hcount, hhome, hc0 rfl,
    hl0 rfl, hunknown, hc1 rfl, hl1 rfl, hcart, hc2 (-1) rfl (by norm_num),
    hl2 (25 / 2) rfl (by norm_num)⟩

/-! ## The audit report -/

theorem filterMap_map_some {α β : Type} (f : α → Option β) (l : List α) :
    (l.filterMap f).map some = (l.filter fun x => (f x).isSome).map f := by
  induction l with
  | nil => rfl
  | cons a t ih =>
    cases h : f a with
    | none => simp [List.filterMap_cons, List.filter_cons, h, ih]
    | some b => simp [List.filterMap_cons, List.filter_cons, h, ih]

theorem objGet_eq_some_iff {α : Type} (o : Obj α) (key : JSString) (v : α)
    (hnd : (o.map Prod.fst).Nodup) : objGet o key = some v ↔ (key, v) ∈ o := by
  induction o with
  | nil => simp [objGet]
  | cons kv rest ih =>
    obtain ⟨k, w⟩ := kv
    simp only [List.map_cons, List.nodup_cons] at hnd
    by_cases hk : k = key
    · subst hk
      have hnot : (k, v) ∉ rest := fun hm => hnd.1 (List.mem_map.mpr ⟨(k, v), hm, rfl⟩)
      simp only [objGet, if_true, Option.some.injEq, List.mem_cons, Prod.mk.injEq, true_and,
        hnot, or_false]
      exact eq_comm
    · have hne : ¬ (key = k) := fun e => hk e.symm
      simp only [objGet, if_neg hk, ih hnd.2, List.mem_cons, Prod.mk.injEq, hne, false_and,
        false_or]

theorem objGet_perm {α : Type} (o₁ o₂ : Obj α) (key : JSString) (hp : o₁.Perm o₂)
    (hnd : (o₁.map Prod.fst).Nodup) : objGet o₁ key = objGet o₂ key := by
  have hnd2 : (o₂.map Prod.fst).Nodup := (hp.map Prod.fst).nodup_iff.mp hnd
  apply Option.ext
  intro v
  show objGet o₁ key = some v ↔ objGet o₂ key = some v
  rw [objGet_eq_some_iff o₁ key v hnd, objGet_eq_some_iff o₂ key v hnd2]
  exact hp.mem_iff

theorem jsRound_nearest (x : ℚ) : (jsRound x : ℚ) ≤ x + 1 / 2 ∧ x + 1 / 2 < (jsRound x : ℚ) + 1 :=
  ⟨Int.floor_le _, Int.lt_floor_add_one _⟩

theorem diagnosticOf_eq_some_iff (audits : Obj Audit) (id : JSString) (d : Diagnostic) :
    diagnosticOf audits id = some d ↔
      ∃ a s, objGet audits id = some a ∧ a.score = Score.num s ∧ s < 1 ∧
        d = diagnosticEntry id a s := by
  constructor
  · intro h
    unfold diagnosticOf at h
    cases hg : objGet audits id with
    | none => simp [hg] at h
    | some a =>
      cases hs : a.score with
      | undefined => simp [hg, hs] at h
      | null => simp [hg, hs] at h
      | num s =>
        by_cases h1 : s < 1
        · simp only [hg, hs, if_pos h1, Option.some.injEq] at h
          exact ⟨a, s, rfl, hs, h1, h.symm⟩
        · simp [hg, hs, h1] at h
  · rintro ⟨a, s, hg, hs, h1, hd⟩
    simp only [diagnosticOf, hg, hs, if_pos h1, hd]

/-- C17: the diagnostics of the report hold an entry exactly for the
identifiers of the 12-element allow-list whose audit is present with a score
that is a number below `1`, one entry each, in the order of the allow-list;
an audit of score `1`, of score `null` or without score, an absent audit and
an identifier outside the allow-list give no entry. -/
theorem diagnostics_filter (data : LighthouseDoc) :
    diagnosticAudits.length = 12 ∧ diagnosticAudits.Nodup ∧
    (∀ d, d ∈ (processLighthouseFile data).diagnostics ↔
      ∃ id a s, id ∈ diagnosticAudits ∧ objGet (data.audits.getD []) id = some a ∧
        a.score = Score.num s ∧ s < 1 ∧ d = diagnosticEntry id a s) ∧
    (∃ ids : List JSString, ids.Sublist diagnosticAudits ∧
      (∀ id, id ∈ ids ↔ id ∈ diagnosticAudits ∧
        ∃ a s, objGet (data.audits.getD []) id = some a ∧ a.score = Score.num s ∧ s < 1) ∧
      (processLighthouseFile data).diagnostics.length = ids.length ∧
      (processLighthouseFile data).diagnostics.map some =
        ids.map (diagnosticOf (data.audits.getD []))) := by
  refine ⟨rfl, by decide, ?_, ?_⟩
  · intro d
    simp only [processLighthouseFile, diagnostics, List.mem_filterMap,
      diagnosticOf_eq_some_iff]
    constructor
    · rintro ⟨id, hid, a, s, h1, h2, h3, h4⟩
      exact ⟨id, a, s, hid, h1, h2, h3, h4⟩
    · rintro ⟨id, a, s, hid, h1, h2, h3, h4⟩
      exact ⟨id, hid, a, s, h1, h2, h3, h4⟩
  · refine ⟨diagnosticAudits.filter fun id => (diagnosticOf (data.audits.getD []) id).isSome,
      List.filter_sublist _, ?_, ?_, ?_⟩
    · intro id
      rw [List.mem_filter]
      constructor
      · rintro ⟨hid, hsome⟩
        obtain ⟨d, hd⟩ := Option.isSome_iff_exists.mp hsome
        obtain ⟨a, s, h1, h2, h3, _⟩ := (diagnosticOf_eq_some_iff _ id d).mp hd
        exact ⟨hid, a, s, h1, h2, h3⟩
      · rintro ⟨hid, a, s, h1, h2, h3⟩
        exact ⟨hid, Option.isSome_iff_exists.mpr
          ⟨_, (diagnosticOf_eq_some_iff _ id _).mpr ⟨a, s, h1, h2, h3, rfl⟩⟩⟩
    · have h := congrArg List.length
        (filterMap_map_some (diagnosticOf (data.audits.getD [])) diagnosticAudits)
      simpa only [List.length_map] using h
    · exact filterMap_map_some _ _

theorem diagnostics_filter_witness :
    diagnosticEntry "unminified-css".toList
        { title := some "Minify CSS".toList, score := Score.num (1 / 2), numericValue := none,
          displayValue := none, metricSavings := none, items := none } (1 / 2) ∈
      (processLighthouseFile diagnosticDoc).diagnostics :=
  ((diagnostics_filter diagnosticDoc).2.2.1 _).mpr
    ⟨"unminified-css".toList, _, 1 / 2, by decide, by simp [diagnosticDoc, objGet], rfl,
      by norm_num, rfl⟩

theorem jsRound_eq (x : ℚ) (n : ℤ) (h1 : (n : ℚ) ≤ x + 1 / 2) (h2 : x + 1 / 2 < (n : ℚ) + 1) :
    jsRound x = n := by
  unfold jsRound
  rw [Int.floor_eq_iff]
  exact ⟨h1, h2⟩

theorem rating_of_num (s : ℚ) :
    (getScoreLabel (Score.num s)).rating? =
      some (if 9 / 10 ≤ s then Rating.good
        else if 1 / 2 ≤ s then Rating.needsWork else Rating.poor) := by
  unfold getScoreLabel
  simp only [ge_iff_le]
  split_ifs <;> rfl

/-- C18: the rating in the label of `getScoreLabel` is `Good` exactly for a
score of at least `0.9`, `Needs Work` exactly for a score in `[0.5, 0.9)`,
`Poor` exactly for a score below `0.5`, and the label is `N/A` exactly when
the score is `null` or `undefined`; the scores `0.9`, `0.8999` and `0.4999`
give `Good`, `Needs Work` and `Poor`. -/
theorem getScoreLabel_rating (score : Score) :
    ((getScoreLabel score).rating? = some Rating.good ↔
      ∃ s, score = Score.num s ∧ 9 / 10 ≤ s) ∧
    ((getScoreLabel score).rating? = some Rating.needsWork ↔
      ∃ s, score = Score.num s ∧ 1 / 2 ≤ s ∧ s < 9 / 10) ∧
    ((getScoreLabel score).rating? = some Rating.poor ↔
      ∃ s, score = Score.num s ∧ s < 1 / 2) ∧
    (getScoreLabel score = ScoreLabel.notAvailable ↔
      score = Score.null ∨ score = Score.undefined) ∧
    getScoreLabel (Score.num (9 / 10)) = ScoreLabel.rated 90 Rating.good ∧
    getScoreLabel (Score.num (8999 / 10000)) = ScoreLabel.rated 90 Rating.needsWork ∧
    getScoreLabel (Score.num (4999 / 10000)) = ScoreLabel.rated 50 Rating.poor := by
  have e1 : jsRound (9 / 10 * 100) = 90 := jsRound_eq _ 90 (by norm_num) (by norm_num)
  have e2 : jsRound (8999 / 10000 * 100) = 90 := jsRound_eq _ 90 (by norm_num) (by norm_num)
  have e3 : jsRound (4999 / 10000 * 100) = 50 := jsRound_eq _ 50 (by norm_num) (by norm_num)
  have hna : ∀ (sc : Score) (r : Rating), (sc = Score.null ∨ sc = Score.undefined) →
      ((getScoreLabel sc).rating? = some r ↔ False) := by
    intro sc r h
    rcases h with rfl | rfl <;> exact ⟨fun h => Option.noConfusion h, False.elim⟩
  have hnum : ∀ (P : ℚ → Prop) (sc : Score), (sc = Score.null ∨ sc = Score.undefined) →
      ((∃ s, sc = Score.num s ∧ P s) ↔ False) := by
    intro P sc h
    refine ⟨?_, False.elim⟩
    rintro ⟨s, hs, _⟩
    rcases h with rfl | rfl <;> exact Score.noConfusion hs
  have hex : ∀ (P : ℚ → Prop) (s : ℚ), (∃ s', Score.num s = Score.num s' ∧ P s') ↔ P s := by
    intro P s
    constructor
    · rintro ⟨s', hs', hp⟩
      cases hs'
      exact hp
    · intro hp
      exact ⟨s, rfl, hp⟩
  refine ⟨?_, ?_, ?_, ?_, ?_, ?_, ?_⟩
  · cases score with
    | undefined => rw [hna _ _ (Or.inr rfl), hnum _ _ (Or.inr rfl)]
    | null => rw [hna _ _ (Or.inl rfl), hnum _ _ (Or.inl rfl)]
    | num s =>
      rw [rating_of_num, hex (fun x => 9 / 10 ≤ x) s]
      by_cases h9 : 9 / 10 ≤ s
      · rw [if_pos h9]
        exact ⟨fun _ => h9, fun _ => rfl⟩
      · rw [if_neg h9]
        refine ⟨fun h => ?_, fun h => absurd h h9⟩
        split_ifs at h <;> cases h
  · cases score with
    | undefined => rw [hna _ _ (Or.inr rfl), hnum _ _ (Or.inr rfl)]
    | null => rw [hna _ _ (Or.inl rfl), hnum _ _ (Or.inl rfl)]
    | num s =>
      rw [rating_of_num, hex (fun x => 1 / 2 ≤ x ∧ x < 9 / 10) s]
      by_cases h9 : 9 / 10 ≤ s
      · rw [if_pos h9]
        exact ⟨fun h => (by cases h), fun h => absurd h9 (not_le.mpr h.2)⟩
      · rw [if_neg h9]
        by_cases h5 : 1 / 2 ≤ s
        · rw [if_pos h5]
          exact ⟨fun _ => ⟨h5, not_le.mp h9⟩, fun _ => rfl⟩
        · rw [if_neg h5]
          exact ⟨fun h => (by cases h), fun h => absurd h.1 h5⟩
  · cases score with
    | undefined => rw [hna _ _ (Or.inr rfl), hnum _ _ (Or.inr rfl)]
    | null => rw [hna _ _ (Or.inl rfl), hnum _ _ (Or.inl rfl)]
    | num s =>
      rw [rating_of_num, hex (fun x => x < 1 / 2) s]
      by_cases h9 : 9 / 10 ≤ s
      · rw [if_pos h9]
        exact ⟨fun h => (by cases h), fun h => absurd h9 (not_le.mpr (by linarith))⟩
      · rw [if_neg h9]
        by_cases h5 : 1 / 2 ≤ s
        · rw [if_pos h5]
          exact ⟨fun h => (by cases h), fun h => absurd h5 (not_le.mpr h)⟩
        · rw [if_neg h5]
          exact ⟨fun _ => not_le.mp h5, fun _ => rfl⟩
  · cases score with
    | undefined => exact ⟨fun _ => Or.inr rfl, fun _ => rfl⟩
    | null => exact ⟨fun _ => Or.inl rfl, fun _ => rfl⟩
    | num s =>
      constructor
      · intro h
        unfold getScoreLabel at h
        simp only at h
        split_ifs at h
      · intro h
        rcases h with h | h <;> cases h
  · have h : ((9 : ℚ) / 10 ≥ 9 / 10) := le_refl _
    simp only [getScoreLabel, h, if_true, e1]
  · have h : ¬ ((8999 : ℚ) / 10000 ≥ 9 / 10) := by norm_num
    have h5 : ((8999 : ℚ) / 10000 ≥ 1 / 2) := by norm_num
    simp only [getScoreLabel, h, h5, if_false, if_true, e2]
  · have h : ¬ ((4999 : ℚ) / 10000 ≥ 9 / 10) := by norm_num
    have h5 : ¬ ((4999 : ℚ) / 10000 ≥ 1 / 2) := by norm_num
    simp only [getScoreLabel, h, h5, if_false, e3]

theorem getScoreLabel_rating_witness :
    (getScoreLabel (Score.num (3 / 4))).rating? = some Rating.needsWork :=
  (getScoreLabel_rating (Score.num (3 / 4))).2.1.mpr ⟨3 / 4, rfl, by norm_num, by norm_num⟩

/-- C19, the code at the failing input: a category that is present without
a `score` member gets the score `NaN`, not `N/A`, since line 60 compares
with `null` only. -/
theorem categoryScores_missing_score :
    categoryScores
        [("performance".toList, { title := some "Performance".toList, score := Score.undefined })] =
      [{ category := some "Performance".toList, score := CatScore.nan }] ∧
    (categoryScoreOf { title := some "Performance".toList, score := Score.undefined }).score ≠
      CatScore.notAvailable := by
  decide

/-- What `categoryScores` does on the scores it tells apart: it lists the
categories among performance, accessibility, best-practices and seo that are
present in the document, one entry each, in that fixed order whatever the
order of the keys of the document; the score of an entry is the raw score
times 100 rounded to the nearest integer when the score is a number, and
`N/A` when it is `null`. -/
theorem categoryScores_ordered (categories : Obj Category) :
    (∃ ids : List JSString, ids.Sublist categoryOrder ∧
      (∀ id, id ∈ ids ↔ id ∈ categoryOrder ∧ (objGet categories id).isSome = true) ∧
      (categoryScores categories).length = ids.length ∧
      (categoryScores categories).map some =
        ids.map fun id => (objGet categories id).map categoryScoreOf) ∧
    (∀ c q, c.score = Score.num q →
      (categoryScoreOf c).score = CatScore.value (jsRound (q * 100))) ∧
    (∀ c, c.score = Score.null → (categoryScoreOf c).score = CatScore.notAvailable) ∧
    (∀ c, (categoryScoreOf c).category = c.title) ∧
    (∀ x : ℚ, (jsRound x : ℚ) ≤ x + 1 / 2 ∧ x + 1 / 2 < (jsRound x : ℚ) + 1) ∧
    (∀ other : Obj Category, categories.Perm other → (categories.map Prod.fst).Nodup →
      categoryScores other = categoryScores categories) := by
  refine ⟨?_, ?_, ?_, fun _ => rfl, jsRound_nearest, ?_⟩
  · have hfm := filterMap_map_some
      (fun id => (objGet categories id).map categoryScoreOf) categoryOrder
    refine ⟨categoryOrder.filter fun id =>
        ((objGet categories id).map categoryScoreOf).isSome, List.filter_sublist _, ?_, ?_, hfm⟩
    · intro id
      rw [List.mem_filter, Option.isSome_map']
    · have h := congrArg List.length hfm
      simpa only [List.length_map] using h
  · intro c q h
    simp only [categoryScoreOf, h]
  · intro c h
    simp only [categoryScoreOf, h]
  · intro other hp hnd
    unfold categoryScores
    congr 1
    funext id
    rw [objGet_perm categories other id hp hnd]

theorem categoryScores_ordered_witness :
    categoryScores shuffledCategories.reverse = categoryScores shuffledCategories ∧
    (categoryScores shuffledCategories).map (fun e => e.category) =
      [some "Performance".toList, some "SEO".toList] :=
  ⟨((categoryScores_ordered shuffledCategories.reverse).2.2.2.2.2 shuffledCategories
      (List.reverse_perm _) (by decide)).symm,
   by decide⟩

/-- C20: `jsExecution` has `min n 10` entries for the `n` items of the
bootup-time audit, its entry at position `i` is built from the item at
position `i`, and the whole is the first ten items in the order of the
document, with no sorting. -/
theorem jsExecution_first_ten (data : LighthouseDoc) :
    (processLighthouseFile data).jsExecution.length =
      min (bootupItems (data.audits.getD [])).length 10 ∧
    (∀ i, i < min (bootupItems (data.audits.getD [])).length 10 →
      (processLighthouseFile data).jsExecution[i]? =
        ((bootupItems (data.audits.getD []))[i]?).map jsExecutionRow) ∧
    (processLighthouseFile data).jsExecution =
      ((bootupItems (data.audits.getD [])).map jsExecutionRow).take 10 := by
  refine ⟨?_, ?_, ?_⟩
  · simp only [processLighthouseFile, jsExecution, List.length_map, List.length_take]
    exact Nat.min_comm _ _
  · intro i hi
    have h10 : i < 10 := lt_of_lt_of_le hi (Nat.min_le_right _ _)
    simp only [processLighthouseFile, jsExecution, List.getElem?_map, List.getElem?_take, h10,
      if_true]
  · simp only [processLighthouseFile, jsExecution, List.map_take]

theorem jsExecution_first_ten_witness :
    (processLighthouseFile bootupDoc).jsExecution.length = 3 ∧
    (processLighthouseFile bootupDoc).jsExecution.map (fun r => r.url) =
      ["a.js".toList, "b.js".toList, "N/A".toList] ∧
    (processLighthouseFile bootupDoc).jsExecution.map (fun r => r.total) =
      [toFixed2 5, toFixed2 9, toFixed2 5] :=
  ⟨(jsExecution_first_ten bootupDoc).1.trans (by decide),
   by rw [(jsExecution_first_ten bootupDoc).2.2]; decide,
   by rw [(jsExecution_first_ten bootupDoc).2.2]; rfl⟩

/-! ## The sheet name -/

theorem basename_append (stem ext : CodeUnits) (hext : ext ≠ []) :
    basename (stem ++ ext) ext = stem := by
  unfold basename
  have h1 : ¬ (ext = [] ∨ (stem ++ ext).length < ext.length) := by
    rintro (h | h)
    · exact hext h
    · rw [List.length_append] at h
      omega
  rw [if_neg h1]
  by_cases h2 : ext = stem ++ ext
  · rw [if_pos h2]
    have hl := congrArg List.length h2
    rw [List.length_append] at hl
    exact (List.length_eq_zero.mp (by omega)).symm
  · rw [if_neg h2]
    have h3 : ext.isSuffixOf (stem ++ ext) = true :=
      List.isSuffixOf_iff_suffix.mpr (List.suffix_append stem ext)
    rw [if_pos h3, List.length_append, Nat.add_sub_cancel]
    exact List.take_left' rfl

theorem sheetNameOf_eq_take (ext fileName : CodeUnits) :
    sheetNameOf ext fileName = (basename fileName ext).take 31 := by
  unfold sheetNameOf
  by_cases h : (basename fileName ext).length > 31
  · simp only [h, if_true]
  · simp only [h, if_false]
    exact (List.take_of_length_le (not_lt.mp h)).symm

/-- C21, as stated, fails twice.  The file `A.HAR` is admitted by the filter
of line 371, which lowercases the name, while `path.basename(fileName,
'.har')` compares the suffix as it is written and removes nothing: the sheet
name is `A.HAR`, not `A`.  And a name without extension of 31 characters
whose last one lies outside the basic plane has 32 UTF-16 code units: it is
cut inside the surrogate pair and is not handed over whole. -/
theorem sheet_name_counterexample :
    admitted (utf16 ".har".toList) (utf16 "A.HAR".toList) = true ∧
    harSheetName (utf16 "A.HAR".toList) = utf16 "A.HAR".toList ∧
    harSheetName (utf16 "A.HAR".toList) ≠ utf16 "A".toList ∧
    (List.replicate 30 'a' ++ [Char.ofNat 0x1F600]).length = 31 ∧
    harSheetName (utf16 (List.replicate 30 'a' ++ [Char.ofNat 0x1F600] ++ ".har".toList)) =
      List.replicate 30 97 ++ [0xD83D] ∧
    harSheetName (utf16 (List.replicate 30 'a' ++ [Char.ofNat 0x1F600] ++ ".har".toList)) ≠
      utf16 (List.replicate 30 'a' ++ [Char.ofNat 0x1F600]) := by
  decide

/-- C21, amended: with `ext` the suffix `.har` or `.json` of the program, the
name handed to `addSheet` for a file named `stem ++ ext`, the suffix written
as in the program, is the first 31 UTF-16 code units of `stem`: it has at
most 31 units, it is a leading part of `stem`, and it is `stem` when that has
at most 31 units. -/
theorem sheetName_code_units (ext stem : CodeUnits) (hext : ext ≠ []) :
    sheetNameOf ext (stem ++ ext) = stem.take 31 ∧
    (sheetNameOf ext (stem ++ ext)).length ≤ 31 ∧
    sheetNameOf ext (stem ++ ext) <+: stem ∧
    (stem.length ≤ 31 → sheetNameOf ext (stem ++ ext) = stem) := by
  have h : sheetNameOf ext (stem ++ ext) = stem.take 31 := by
    rw [sheetNameOf_eq_take, basename_append stem ext hext]
  refine ⟨h, ?_, ?_, ?_⟩
  · rw [h, List.length_take]
    exact Nat.min_le_left _ _
  · rw [h]
    exact ⟨stem.drop 31, List.take_append_drop 31 stem⟩
  · intro hl
    rw [h]
    exact List.take_of_length_le hl

theorem sheetName_code_units_witness :
    harSheetName (utf16 "checkout-flow-production-2024-11-05-run-17.har".toList) =
      utf16 "checkout-flow-production-2024-1".toList ∧
    lighthouseSheetName (utf16 "home.json".toList) = utf16 "home".toList :=
  ⟨(sheetName_code_units (utf16 ".har".toList)
      (utf16 "checkout-flow-production-2024-11-05-run-17".toList) (by decide)).1.trans
      (by decide),
   (sheetName_code_units (utf16 ".json".toList) (utf16 "home".toList) (by decide)).2.2.2
      (by decide)⟩

/-! ## A document without `audits` -/

/-- C22, as stated, fails: on a text that parses to a document without
members `processLighthouseFile` does not fail; it returns a report whose
sections are empty. -/
theorem missing_audits_counterexample :
    sampleParseJSON "\x7b\x7d".toList = some { audits := none, categories := none } ∧
    processLighthouseRaw sampleParseJSON "\x7b\x7d".toList =
      some { categoryScores := [], jsExecution := [], diagnostics := [] } ∧
    processLighthouseRaw sampleParseJSON "\x7b\x7d".toList ≠ none := by
  decide

/-- C22, amended: for a parsed document that lacks the top-level `audits`
object `processLighthouseFile` does not fail; line 40 takes the empty object
in its place and the report is returned, with no JavaScript-execution entry
and no diagnostic, and with the category scores of the document; it is the
report of the same document with `audits` empty. -/
theorem missing_audits_defaults (parseJSON : JSString → Option LighthouseDoc)
    (rawData : JSString) (categories : Option (Obj Category))
    (h : parseJSON rawData = some { audits := none, categories := categories }) :
    processLighthouseRaw parseJSON rawData =
      some { categoryScores := categoryScores (categories.getD [])
             jsExecution := []
             diagnostics := [] } ∧
    processLighthouseFile { audits := none, categories := categories } =
      processLighthouseFile { audits := some [], categories := categories } := by
  constructor
  · simp only [processLighthouseRaw, h]
    rfl
  · rfl

theorem missing_audits_defaults_witness :
    processLighthouseRaw sampleParseJSON "\x7b\x7d".toList =
      some { categoryScores := [], jsExecution := [], diagnostics := [] } :=
  (missing_audits_defaults sampleParseJSON "\x7b\x7d".toList none (by decide)).1

/-! ## Ratings and styles -/

theorem style_of_num (s : ℚ) :
    getScoreStyle (Score.num s) =
      if 9 / 10 ≤ s then
        { font := ScoreFont.fontScoreGood, fill := some ScoreFill.fillScoreGood }
      else if 1 / 2 ≤ s then
        { font := ScoreFont.fontScoreAvg, fill := some ScoreFill.fillScoreAvg }
      else { font := ScoreFont.fontScorePoor, fill := some ScoreFill.fillScorePoor } := by
  unfold getScoreStyle
  simp only [ge_iff_le]

theorem categoryRow_rating_of_num (title : Option JSString) (s : ℚ) :
    (categoryRow (categoryScoreOf { title := title, score := Score.num s })).rating =
      some (specRating (((jsRound (s * 100) : ℤ) : ℚ) / 100)) := by
  simp only [categoryRow, categoryScoreOf, specRating, ge_iff_le]

theorem specRating_round_good (s : ℚ) :
    specRating (((jsRound (s * 100) : ℤ) : ℚ) / 100) = Rating.good ↔ 179 / 200 ≤ s := by
  have hle := Int.floor_le (s * 100 + 1 / 2)
  have hlt := Int.lt_floor_add_one (s * 100 + 1 / 2)
  unfold specRating jsRound
  by_cases h9 : (9 : ℚ) / 10 ≤ ((⌊s * 100 + 1 / 2⌋ : ℤ) : ℚ) / 100
  · rw [if_pos h9]
    refine ⟨fun _ => ?_, fun _ => rfl⟩
    have h90 : (90 : ℚ) ≤ ((⌊s * 100 + 1 / 2⌋ : ℤ) : ℚ) := by linarith
    linarith
  · rw [if_neg h9]
    constructor
    · intro h
      split_ifs at h
    · intro hs
      exfalso
      apply h9
      have h90 : (90 : ℤ) ≤ ⌊s * 100 + 1 / 2⌋ := Int.le_floor.mpr (by push_cast; linarith)
      have h90q : (90 : ℚ) ≤ ((⌊s * 100 + 1 / 2⌋ : ℤ) : ℚ) := by exact_mod_cast h90
      linarith

theorem specRating_round_poor (s : ℚ) :
    specRating (((jsRound (s * 100) : ℤ) : ℚ) / 100) = Rating.poor ↔ s < 99 / 200 := by
  have hle := Int.floor_le (s * 100 + 1 / 2)
  have hlt := Int.lt_floor_add_one (s * 100 + 1 / 2)
  unfold specRating jsRound
  by_cases h5 : (1 : ℚ) / 2 ≤ ((⌊s * 100 + 1 / 2⌋ : ℤ) : ℚ) / 100
  · have hne : ¬ s < 99 / 200 := by
      intro hs
      have h50 : (50 : ℚ) ≤ ((⌊s * 100 + 1 / 2⌋ : ℤ) : ℚ) := by linarith
      linarith
    constructor
    · intro h
      split_ifs at h
    · intro hs
      exact absurd hs hne
  · have h9 : ¬ (9 : ℚ) / 10 ≤ ((⌊s * 100 + 1 / 2⌋ : ℤ) : ℚ) / 100 := by
      intro h
      apply h5
      linarith
    rw [if_neg h9, if_neg h5]
    refine ⟨fun _ => ?_, fun _ => rfl⟩
    by_contra hs
    apply h5
    have h50 : (50 : ℤ) ≤ ⌊s * 100 + 1 / 2⌋ :=
      Int.le_floor.mpr (by push_cast; linarith [not_lt.mp hs])
    have h50q : (50 : ℚ) ≤ ((⌊s * 100 + 1 / 2⌋ : ℤ) : ℚ) := by exact_mod_cast h50
    linarith

/-- C23, as stated, fails: a category of raw score `0.8999`, which the
threshold table rates `Needs Work`, is stored as `90` and rated `Good` in
the category-scores section; one of raw score `0.4999` is rated
`Needs Work` where the table says `Poor`. -/
theorem category_rating_counterexample :
    (categoryRow (categoryScoreOf
      { title := some "Performance".toList, score := Score.num (8999 / 10000) })).rating =
      some Rating.good ∧
    specRating (8999 / 10000) = Rating.needsWork ∧
    (categoryRow (categoryScoreOf
      { title := some "Performance".toList, score := Score.num (4999 / 10000) })).rating =
      some Rating.needsWork ∧
    specRating (4999 / 10000) = Rating.poor := by
  have e2 : jsRound (8999 / 10000 * 100) = 90 := jsRound_eq _ 90 (by norm_num) (by norm_num)
  have e3 : jsRound (4999 / 10000 * 100) = 50 := jsRound_eq _ 50 (by norm_num) (by norm_num)
  refine ⟨?_, ?_, ?_, ?_⟩
  · rw [categoryRow_rating_of_num, e2]
    have h : ((9 : ℚ) / 10 ≤ ((90 : ℤ) : ℚ) / 100) := by norm_num
    simp only [specRating, if_pos h]
  · have h : ¬ ((9 : ℚ) / 10 ≤ 8999 / 10000) := by norm_num
    have h5 : ((1 : ℚ) / 2 ≤ 8999 / 10000) := by norm_num
    simp only [specRating, if_neg h, if_pos h5]
  · rw [categoryRow_rating_of_num, e3]
    have h : ¬ ((9 : ℚ) / 10 ≤ ((50 : ℤ) : ℚ) / 100) := by norm_num
    have h5 : ((1 : ℚ) / 2 ≤ ((50 : ℤ) : ℚ) / 100) := by norm_num
    simp only [specRating, if_neg h, if_pos h5]
  · have h : ¬ ((9 : ℚ) / 10 ≤ 4999 / 10000) := by norm_num
    have h5 : ¬ ((1 : ℚ) / 2 ≤ 4999 / 10000) := by norm_num
    simp only [specRating, if_neg h, if_neg h5]

/-- C23, amended: for a category of known raw score `s`, the rating shown in
the category-scores section is the one the threshold table assigns to the
rounded percentage divided by 100: `Good` iff `s ≥ 0.895`, `Needs Work` iff
`0.495 ≤ s < 0.895`, `Poor` iff `s < 0.495`; it is the rating of the table
on `s` itself except for `s` in `[0.895, 0.9)` and in `[0.495, 0.5)`. -/
theorem category_rating_rounded (title : Option JSString) (s : ℚ) :
    (categoryRow (categoryScoreOf { title := title, score := Score.num s })).rating =
      some (specRating (((jsRound (s * 100) : ℤ) : ℚ) / 100)) ∧
    ((categoryRow (categoryScoreOf { title := title, score := Score.num s })).rating =
      some Rating.good ↔ 179 / 200 ≤ s) ∧
    ((categoryRow (categoryScoreOf { title := title, score := Score.num s })).rating =
      some Rating.needsWork ↔ 99 / 200 ≤ s ∧ s < 179 / 200) ∧
    ((categoryRow (categoryScoreOf { title := title, score := Score.num s })).rating =
      some Rating.poor ↔ s < 99 / 200) ∧
    (¬ (179 / 200 ≤ s ∧ s < 9 / 10) → ¬ (99 / 200 ≤ s ∧ s < 1 / 2) →
      (categoryRow (categoryScoreOf { title := title, score := Score.num s })).rating =
        some (specRating s)) := by
  have hg := specRating_round_good s
  have hp := specRating_round_poor s
  have hrow := categoryRow_rating_of_num title s
  have hinj : ∀ r : Rating,
      (categoryRow (categoryScoreOf { title := title, score := Score.num s })).rating = some r ↔
        specRating (((jsRound (s * 100) : ℤ) : ℚ) / 100) = r := by
    intro r
    rw [hrow]
    exact ⟨fun h => Option.some.inj h, fun h => congrArg some h⟩
  have hn : specRating (((jsRound (s * 100) : ℤ) : ℚ) / 100) = Rating.needsWork ↔
      99 / 200 ≤ s ∧ s < 179 / 200 := by
    constructor
    · intro h
      refine ⟨?_, ?_⟩
      · by_contra hc
        rw [hp.mpr (not_le.mp hc)] at h
        cases h
      · by_contra hc
        rw [hg.mpr (not_lt.mp hc)] at h
        cases h
    · rintro ⟨h1, h2⟩
      cases hr : specRating (((jsRound (s * 100) : ℤ) : ℚ) / 100) with
      | good => exact absurd (hg.mp hr) (not_le.mpr h2)
      | needsWork => rfl
      | poor => exact absurd (hp.mp hr) (not_lt.mpr h1)
  refine ⟨hrow, (hinj _).trans hg, (hinj _).trans hn, (hinj _).trans hp, ?_⟩
  intro h1 h2
  rw [hrow]
  congr 1
  by_cases h9 : (9 : ℚ) / 10 ≤ s
  · rw [hg.mpr (by linarith)]
    simp only [specRating, if_pos h9]
  · by_cases h5 : (1 : ℚ) / 2 ≤ s
    · have hlt : s < 179 / 200 := by
        by_contra hc
        exact h1 ⟨not_lt.mp hc, not_le.mp h9⟩
      rw [hn.mpr ⟨by linarith, hlt⟩]
      simp only [specRating, if_neg h9, if_pos h5]
    · have hlt : s < 99 / 200 := by
        by_contra hc
        exact h2 ⟨not_lt.mp hc, not_le.mp h5⟩
      rw [hp.mpr hlt]
      simp only [specRating, if_neg h9, if_neg h5]

theorem category_rating_rounded_witness :
    (categoryRow (categoryScoreOf
      { title := some "SEO".toList, score := Score.num (3 / 4) })).rating =
      some (specRating (3 / 4)) ∧
    (categoryRow (categoryScoreOf
      { title := some "SEO".toList, score := Score.num (179 / 200) })).rating =
      some Rating.good :=
  ⟨(category_rating_rounded (some "SEO".toList) (3 / 4)).2.2.2.2
      (fun h => absurd h.1 (by norm_num)) (fun h => absurd h.2 (by norm_num)),
   (category_rating_rounded (some "SEO".toList) (179 / 200)).2.1.mpr (le_refl _)⟩

/-- C24: `getScoreStyle` and `getScoreLabel` put every score in the same
band: the style is the Good one exactly when the rating of the label is
`Good`, the average one exactly when it is `Needs Work`, the Poor one
exactly when it is `Poor`, and the default font without fill exactly when
the label is `N/A`. -/
theorem style_matches_label (score : Score) :
    (getScoreStyle score =
        { font := ScoreFont.fontScoreGood, fill := some ScoreFill.fillScoreGood } ↔
      (getScoreLabel score).rating? = some Rating.good) ∧
    (getScoreStyle score =
        { font := ScoreFont.fontScoreAvg, fill := some ScoreFill.fillScoreAvg } ↔
      (getScoreLabel score).rating? = some Rating.needsWork) ∧
    (getScoreStyle score =
        { font := ScoreFont.fontScorePoor, fill := some ScoreFill.fillScorePoor } ↔
      (getScoreLabel score).rating? = some Rating.poor) ∧
    (getScoreStyle score = { font := ScoreFont.fontDefault, fill := none } ↔
      getScoreLabel score = ScoreLabel.notAvailable) := by
  cases score with
  | undefined => decide
  | null => decide
  | num s =>
    have hlabel : getScoreLabel (Score.num s) ≠ ScoreLabel.notAvailable := by
      intro h
      have hr := rating_of_num s
      rw [h] at hr
      exact Option.noConfusion hr
    rw [style_of_num, rating_of_num]
    refine ⟨?_, ?_, ?_, ?_⟩
    · split_ifs <;> decide
    · split_ifs <;> decide
    · split_ifs <;> decide
    · refine ⟨fun h => ?_, fun h => absurd h hlabel⟩
      split_ifs at h <;> exact absurd h (by decide)

theorem style_matches_label_witness :
    getScoreStyle (Score.num (3 / 4)) =
      { font := ScoreFont.fontScoreAvg, fill := some ScoreFill.fillScoreAvg } :=
  (style_matches_label (Score.num (3 / 4))).2.1.mpr
    ((rating_of_num (3 / 4)).trans (by
      have h9 : ¬ ((9 : ℚ) / 10 ≤ 3 / 4) := by norm_num
      have h5 : ((1 : ℚ) / 2 ≤ 3 / 4) := by norm_num
      rw [if_neg h9, if_pos h5]))

/-! ## Monotonicity of `percentile` -/

theorem sorted_getElem?_le (l : List ℚ) (hs : l.Sorted (fun a b => a ≤ b)) (i j : Nat)
    (hij : i ≤ j) (x y : ℚ) (hx : l[i]? = some x) (hy : l[j]? = some y) : x ≤ y := by
  obtain ⟨hi, hxi⟩ := List.getElem?_eq_some.mp hx
  obtain ⟨hj, hyj⟩ := List.getElem?_eq_some.mp hy
  rcases Nat.eq_or_lt_of_le hij with heq | hlt
  · subst heq
    rw [← hxi, ← hyj]
  · have h := List.pairwise_iff_getElem.mp hs i j hi hj hlt
    rw [← hxi, ← hyj]
    exact h

/-- C25: on a non-empty sequence and for `0 < p ≤ q ≤ 100`, both calls
return an element and `percentile(arr, p) ≤ percentile(arr, q)`. -/
theorem percentile_mono (arr : List ℚ) (p q : ℚ) (hne : arr ≠ []) (hp : 0 < p) (hpq : p ≤ q)
    (hq : q ≤ 100) :
    ∃ x y, percentile arr p = some x ∧ percentile arr q = some y ∧ x ≤ y := by
  obtain ⟨kp, hkp, _, x, _, hxget, hx⟩ := percentile_in_range arr p hne hp (le_trans hpq hq)
  obtain ⟨kq, hkq, _, y, _, hyget, hy⟩ :=
    percentile_in_range arr q hne (lt_of_lt_of_le hp hpq) hq
  have hn : (0 : ℚ) ≤ (arr.length : ℚ) := by exact_mod_cast Nat.zero_le _
  have hmul : (p / 100) * (arr.length : ℚ) ≤ (q / 100) * (arr.length : ℚ) :=
    mul_le_mul_of_nonneg_right (by linarith) hn
  have hceil := Int.ceil_mono hmul
  have hk : kp ≤ kq := by omega
  exact ⟨x, y, hx, hy, sorted_getElem?_le _ (sorted_sortAsc arr) kp kq hk x y hxget hyget⟩

theorem percentile_mono_witness :
    ∃ x y, percentile [30, 10, 20] 50 = some x ∧ percentile [30, 10, 20] 95 = some y ∧ x ≤ y :=
  percentile_mono [30, 10, 20] 50 95 (by simp) (by norm_num) (by norm_num) (by norm_num)

end HarToExcel
